import Mathlib

/-
  Verification of the nfl-predictor repository's statistics/prediction
  pipeline against its specification.

  Conventions of the shallow embedding:
  * JavaScript / Python numbers are modelled as exact rationals (ℚ).
    A JavaScript division whose denominator is 0 produces NaN/Infinity,
    i.e. no finite number; such divisions are modelled as `Option ℚ`
    returning `none`.
  * Matrices are lists of row lists, mirroring the source's lists of lists.
  * Fallible operations (Gaussian elimination on a singular system,
    regression `fit`) return `Option`; `none` models the reported
    singular-design-matrix failure.
  * Python's `** 0.5` on a nonnegative number is modelled as `Real.sqrt`.

  The file is organised as definitions first, then theorems.
-/

/-! ## Definitions -/

/-! ### Generic finite sums over `List.range`, used to translate the
    source's `for`-loops and `sum(...)` comprehensions. -/

/-- Sum of `f 0 + f 1 + ... + f (n-1)`, the shape of every Python
`sum(... for i in range(n))` in the source. -/
def rsum (n : ℕ) (f : ℕ → ℚ) : ℚ := ((List.range n).map f).sum

/-- Dot product of two coefficient lists (truncating to the shorter one,
which never happens under the length side conditions carried by the
theorems below). -/
def listDot (a b : List ℚ) : ℚ := (List.zipWith (fun x y => x * y) a b).sum

/-! ### Claim C5 definitions: overall win percentage (src/scraper-csv.js).

    Two variants of the same computation appear in the scraper:
    * `scrapeWikipediaStandings`, src/scraper-csv.js:287 —
      `winPct: wins / (wins + losses + ties)` with no guard; a JS division
      `0/0` yields `NaN`, modelled as `none`.
    * `scrapeNFLStandingsFromNFLCom`, src/scraper-csv.js:500-501 —
      `totalGames > 0 ? wins / totalGames : 0`, the guarded rule. -/

/-- JavaScript's `a / b` on finite numbers: a finite number unless `b = 0`,
in which case the result is `NaN` or `±Infinity` (no finite value), modelled
as `none`. -/
def jsDiv (a b : ℚ) : Option ℚ := if b = 0 then none else some (a / b)

/-- Model of `winPct: wins / (wins + losses + ties)` at
src/scraper-csv.js:287 (Wikipedia scrape path, unguarded). -/
def wikipediaWinPct (wins losses ties : ℕ) : Option ℚ :=
  jsDiv (wins : ℚ) ((wins : ℚ) + (losses : ℚ) + (ties : ℚ))

/-- Model of `teamData.winPct = totalGames > 0 ? teamData.wins / totalGames : 0`
at src/scraper-csv.js:500-501 (NFL.com scrape path, guarded). -/
def nflComWinPct (wins losses ties : ℕ) : ℚ :=
  if 0 < wins + losses + ties
  then (wins : ℚ) / ((wins : ℚ) + (losses : ℚ) + (ties : ℚ))
  else 0

/-! ### Claim C6 definitions: split win percentages from record strings
    (src/scr.js).

    Two variants compute a win percentage from a record string such as
    `"7-2-0"`:
    * `calculateWinPct` (src/scr.js:526-532): parses the record and returns
      `(wins + 0.5 * ties) / totalGames`, 0 when the record string is falsy
      or the total is 0.
    * the inline home/road/division/conference win-pct expressions
      (src/scr.js:331-337): `parseRecord(str).wins / Math.max(1, wins +
      losses + ties)`, 0 when the cell is falsy.
    JS `split('-')` and `parseInt` are modelled by structurally recursive
    character-list functions (`String.splitOn` in Lean is not kernel
    reducible); only `' '` whitespace occurs in the scraped record cells,
    so `trim` is modelled as dropping spaces at both ends. -/

/-- Model of JavaScript `str.split('-')`: greedy split of the character
list at every dash, keeping empty segments. -/
def splitOnDash : List Char → List (List Char)
  | [] => [[]]
  | c :: rest =>
      let r := splitOnDash rest
      if c = '-' then [] :: r
      else
        match r with
        | [] => [[c]]
        | h :: t => (c :: h) :: t

/-- Model of JavaScript `parseInt(p.trim()) || 0` on a nonnegative token:
drop surrounding spaces, read the leading run of decimal digits, and
produce 0 when there is none (`parseInt` gives `NaN` there and `|| 0`
coerces it to 0). -/
def parseIntOrZero (cs : List Char) : ℕ :=
  let t := (((cs.dropWhile (fun c => c = ' ')).reverse).dropWhile
    (fun c => c = ' ')).reverse
  ((t.takeWhile Char.isDigit).map (fun c => c.toNat - 48)).foldl
    (fun acc d => 10 * acc + d) 0

/-- Parsed win-loss-tie triple of a record string. -/
structure RecordTriple where
  wins : ℕ
  losses : ℕ
  ties : ℕ
deriving DecidableEq, Repr

/-- Model of `parseRecord` (src/scr.js:516-524): split on `'-'`, parse each
part with `parseInt(p.trim()) || 0`, missing parts default to 0. The JS
guard for a falsy/non-string argument also yields the all-zero triple,
which this model produces as well. -/
def parseRecord (s : String) : RecordTriple :=
  let parts := (splitOnDash s.toList).map parseIntOrZero
  ⟨parts.getD 0 0, parts.getD 1 0, parts.getD 2 0⟩

/-- Total games of a parsed record triple. -/
def recTotal (r : RecordTriple) : ℕ := r.wins + r.losses + r.ties

/-- Model of `calculateWinPct` (src/scr.js:526-532):
`(record.wins + 0.5 * record.ties) / totalGames`, 0 for a falsy record
string or a zero total. -/
def calculateWinPct (s : String) : ℚ :=
  if s = "" then 0
  else
    let r := parseRecord s
    if recTotal r = 0 then 0
    else ((r.wins : ℚ) + (1 / 2) * (r.ties : ℚ)) / (recTotal r : ℚ)

/-- Model of the inline split win-pct expressions (src/scr.js:331-337):
`cellTexts[k] ? parseRecord(cellTexts[k]).wins / Math.max(1, wins + losses
+ ties) : 0`. -/
def inlineSplitWinPct (s : String) : ℚ :=
  if s = "" then 0
  else
    let r := parseRecord s
    (r.wins : ℚ) / ((max 1 (recTotal r) : ℕ) : ℚ)

/-! ### Claim C7 definition: championship profile composite
    (src/explanation.md:372-376). -/

/-- Model of `championship_profile` from `create_advanced_features`
(src/explanation.md:372-376): `(winPct × 0.4) + (scoring_efficiency × 0.3)
+ (home_road_consistency × 0.15) + (strength_of_schedule × 0.15)`; the
weights 0.4, 0.3, 0.15, 0.15 written as exact rationals. -/
def championship_profile (winPct scoringEff homeRoadCons sos : ℚ) : ℚ :=
  winPct * (2 / 5) + scoringEff * (3 / 10) + homeRoadCons * (3 / 20) +
    sos * (3 / 20)

/-! ### Claims C3 and C4 definitions: manual Pearson correlation and the
    correlation matrix (src/explanation.md:92-142).

    The explanation shows the implementation steps of `manual_correlation`
    (means, numerator, the two centred sums of squares, and
    `numerator / (x_variance * y_variance) ** 0.5`); all loops run over
    `range(n)` with `n = len(x)`. The zero-denominator policy and the
    construction of `calculate_correlation_matrix` are modelled from the
    spec (their full notebook bodies are not in the repository snapshot):
    * Modelled from the spec: "Returns 0 when the denominator is 0
      (zero-variance input) rather than producing NaN/undefined" (§4.2).
    * Modelled from the spec: "`M[i][j] = correlation(columns[i],
      columns[j])`; diagonal is exactly 1.0 by construction (skip the
      general formula on the diagonal)" (§4.2).
    Python's `** 0.5` is modelled as `Real.sqrt`. -/

/-- Numerator `sum((x[i] - x_mean) * (y[i] - y_mean) for i in range(n))` of
`manual_correlation`, with `n = len(x)` and both means divided by `n`. -/
def manual_correlation_num (x y : List ℚ) : ℚ :=
  rsum x.length (fun i =>
    (x.getD i 0 - x.sum / (x.length : ℚ)) *
      (y.getD i 0 - y.sum / (x.length : ℚ)))

/-- Centred sum of squares `x_variance` of `manual_correlation`. -/
def manual_correlation_varx (x : List ℚ) : ℚ :=
  rsum x.length (fun i => (x.getD i 0 - x.sum / (x.length : ℚ)) ^ 2)

/-- Centred sum of squares `y_variance` of `manual_correlation`; the loop
bound and the mean's divisor are `n = len(x)` as in the source steps. -/
def manual_correlation_vary (x y : List ℚ) : ℚ :=
  rsum x.length (fun i => (y.getD i 0 - y.sum / (x.length : ℚ)) ^ 2)

/-- Square of the correlation denominator, `x_variance * y_variance`; the
denominator itself is its square root, so it is zero exactly when this
product is zero. -/
def corrDenomSq (x y : List ℚ) : ℚ :=
  manual_correlation_varx x * manual_correlation_vary x y

/-- Model of `manual_correlation` (src/explanation.md:92-128):
`numerator / (x_variance * y_variance) ** 0.5`, with the zero-denominator
policy modelled from the spec: the result is 0 when
`x_variance * y_variance = 0`. -/
noncomputable def manual_correlation (x y : List ℚ) : ℝ :=
  if corrDenomSq x y = 0 then 0
  else (manual_correlation_num x y : ℝ) / Real.sqrt ((corrDenomSq x y : ℚ) : ℝ)

/-- Model of `calculate_correlation_matrix` (src/explanation.md:132-142).
Modelled from the spec (§4.2): a k×k matrix with
`M[i][j] = correlation(columns[i], columns[j])` off the diagonal and the
diagonal set to exactly 1.0 by construction. -/
noncomputable def calculate_correlation_matrix (cols : List (List ℚ)) :
    List (List ℝ) :=
  (List.range cols.length).map fun i =>
    (List.range cols.length).map fun j =>
      if i = j then 1 else manual_correlation (cols.getD i []) (cols.getD j [])

/-! ### Claims C1 and C2 definitions: manual linear regression
    (src/explanation.md:146-309).

    `matrix_multiply`, `matrix_transpose`, the `fit` pipeline, `predict`,
    `manual_r2` and `manual_mse` are translated from the code shown in
    src/explanation.md. The body of `gaussian_elimination` is not in the
    repository snapshot; it is modelled from the spec (§4.3): partial
    pivoting (select the row with the largest absolute coefficient in the
    current column), failure with a singular-design-matrix condition when
    the selected pivot's magnitude is below epsilon = 1e-12 at any step,
    forward elimination, and back substitution. The forward-elimination
    and back-substitution phases are fused into one structural recursion
    `solveAux` that eliminates the leading column, recurses on the reduced
    system, and back-substitutes the leading variable; the row operations
    and the final values are those of the spec's two-phase description. -/

/-- One linear equation: coefficient list and right-hand side. -/
abbrev LinEq : Type := List ℚ × ℚ

/-- Leading coefficient of an equation (0 for an empty coefficient list,
which never occurs under the length side conditions). -/
def headC (e : LinEq) : ℚ := e.1.headD 0

/-- Singularity threshold. Modelled from the spec (§4.3): "pivot magnitude
below a small epsilon, e.g. 1e-12". -/
def eps : ℚ := 1 / 10 ^ 12

/-- Partial pivoting: select the equation whose leading coefficient has the
largest absolute value (the earliest one on ties) and return it together
with the remaining equations. -/
def pickPivot : List LinEq → Option (LinEq × List LinEq)
  | [] => none
  | e :: es =>
      match pickPivot es with
      | none => some (e, [])
      | some (p, rest) =>
          if |headC p| > |headC e| then some (p, e :: rest) else some (e, es)

/-- One forward-elimination row operation: subtract `headC e / headC p`
times the pivot equation from `e` and drop the (now zero) leading
coefficient. -/
def elimStep (p e : LinEq) : LinEq :=
  let c := headC e / headC p
  (List.zipWith (fun a b => a - c * b) e.1.tail p.1.tail, e.2 - c * p.2)

/-- Gaussian elimination with partial pivoting for `n` variables: pick the
pivot, fail when its magnitude is below `eps`, eliminate the leading column
from the other equations, solve the reduced system, and back-substitute
the pivot variable. -/
def solveAux : ℕ → List LinEq → Option (List ℚ)
  | 0, _ => some []
  | n + 1, eqns =>
      match pickPivot eqns with
      | none => none
      | some (p, rest) =>
          if |headC p| < eps then none
          else
            match solveAux n (rest.map (elimStep p)) with
            | none => none
            | some xs => some ((p.2 - listDot p.1.tail xs) / headC p :: xs)

/-- Trace predicate mirroring `solveAux` step by step: `true` exactly when
the pivot selected at every elimination step has magnitude at least `eps`
(and an equation is available at every step). -/
def pivotsOK : ℕ → List LinEq → Bool
  | 0, _ => true
  | n + 1, eqns =>
      match pickPivot eqns with
      | none => false
      | some (p, rest) =>
          if |headC p| < eps then false
          else pivotsOK n (rest.map (elimStep p))

/-- Model of `gaussian_elimination(A, b)` (spec §4.3) for the square system
`A x = b`: the number of variables is the number of rows of `A`. -/
def gaussian_elimination (A : List (List ℚ)) (b : List ℚ) : Option (List ℚ) :=
  solveAux A.length (A.zip b)

/-- Model of `matrix_transpose` (src/explanation.md:174-177):
`[[matrix[i][j] for i in range(rows)] for j in range(cols)]` with
`cols = len(matrix[0])`. -/
def matrix_transpose (M : List (List ℚ)) : List (List ℚ) :=
  (List.range (M.headD []).length).map fun j =>
    (List.range M.length).map fun i => (M.getD i []).getD j 0

/-- Model of `matrix_multiply` (src/explanation.md:154-166): triple loop
`result[i][j] = sum over k < cols_A of A[i][k] * B[k][j]`, with
`cols_A = len(A[0])` and `cols_B = len(B[0])`. -/
def matrix_multiply (A B : List (List ℚ)) : List (List ℚ) :=
  A.map fun arow =>
    (List.range (B.headD []).length).map fun j =>
      rsum (A.headD []).length (fun k => arow.getD k 0 * (B.getD k []).getD j 0)

/-- Bias augmentation inside `fit` (src/explanation.md:215-227): each row
becomes `[1.0] ++ [X[i][j] for j in range(n_features)]` with
`n_features = len(X[0])`. -/
def withBias (X : List (List ℚ)) : List (List ℚ) :=
  X.map fun r =>
    1 :: (List.range (X.headD []).length).map fun j => r.getD j 0

/-- The normal-equation matrix `X_T X` of `fit` (src/explanation.md:235-243),
computed on the bias-augmented design matrix. -/
def normalMatrix (X : List (List ℚ)) : List (List ℚ) :=
  matrix_multiply (matrix_transpose (withBias X)) (withBias X)

/-- The normal-equation vector `X_T y` of `fit` (src/explanation.md:245-253):
`Xty[i] = sum over j < len(y) of X_T[i][j] * y[j]`. -/
def normalVector (X : List (List ℚ)) (y : List ℚ) : List ℚ :=
  (matrix_transpose (withBias X)).map fun row =>
    rsum y.length (fun j => row.getD j 0 * y.getD j 0)

/-- Model of `ManualLinearRegression.fit` (src/explanation.md:214-258):
augment with the bias column, form the normal equations, solve them by
`gaussian_elimination`, and split `theta` into intercept and coefficients.
`none` models the reported singular-design-matrix failure (and the
out-of-range `theta[0]` access on an empty solution, which in Python also
ends `fit` without producing coefficients). -/
def fit (X : List (List ℚ)) (y : List ℚ) : Option (ℚ × List ℚ) :=
  match gaussian_elimination (normalMatrix X) (normalVector X y) with
  | none => none
  | some [] => none
  | some (t :: ts) => some (t, ts)

/-- Trace predicate for the pivots of the elimination run inside
`fit X y`. -/
def fitPivotsOK (X : List (List ℚ)) (y : List ℚ) : Bool :=
  pivotsOK (normalMatrix X).length ((normalMatrix X).zip (normalVector X y))

/-- Model of `predict` (src/explanation.md:262-273): for each row,
`intercept + sum over j < len(coefficients) of X[i][j] * coefficients[j]`. -/
def predict (intercept : ℚ) (coefficients : List ℚ) (X : List (List ℚ)) :
    List ℚ :=
  X.map fun r =>
    intercept +
      rsum coefficients.length (fun j => r.getD j 0 * coefficients.getD j 0)

/-- Model of `manual_mean`: arithmetic mean used by `manual_r2`
(src/explanation.md:280-296, formula `ȳ = sum / n`). -/
def manual_mean (y : List ℚ) : ℚ := y.sum / (y.length : ℚ)

/-- Model of `manual_sum_squares`: `SS_total = sum((y[i] - mean) ** 2)`
used by `manual_r2` (src/explanation.md:280-296). -/
def manual_sum_squares (y : List ℚ) (m : ℚ) : ℚ :=
  rsum y.length (fun i => (y.getD i 0 - m) ^ 2)

/-- Model of `manual_r2` (src/explanation.md:280-286):
`1 - ss_residual / ss_total` when `ss_total != 0`, else 0. -/
def manual_r2 (yTrue yPred : List ℚ) : ℚ :=
  let m := manual_mean yTrue
  let ssTotal := manual_sum_squares yTrue m
  let ssResidual := rsum yTrue.length (fun i => (yTrue.getD i 0 - yPred.getD i 0) ^ 2)
  if ssTotal ≠ 0 then 1 - ssResidual / ssTotal else 0

/-- Model of `manual_mse` (src/explanation.md:300-304):
`sum((y_true[i] - y_pred[i]) ** 2) / len(y_true)`. -/
def manual_mse (yTrue yPred : List ℚ) : ℚ :=
  rsum yTrue.length (fun i => (yTrue.getD i 0 - yPred.getD i 0) ^ 2) /
    (yTrue.length : ℚ)

/-- Satisfaction of one linear equation by a candidate solution vector. -/
def eqnSat (xs : List ℚ) (e : LinEq) : Prop := listDot e.1 xs = e.2

/-- Sparse difference vector `e_p - e_q` of length `L`, used to exhibit a
kernel vector of the normal matrix when two design columns coincide. -/
def unitDiff (L p q : ℕ) : List ℚ :=
  (List.range L).map fun t => if t = p then 1 else if t = q then -1 else 0

/-- Concrete design matrix for the C1 counterexample: two features scaled
by 1e-6, rows (δ, 0), (0, δ), (δ, δ) with δ = 1e-6. Its bias-augmented
normal matrix is nonsingular (determinant δ⁴ ≠ 0), yet the second
elimination pivot is 2δ²/3 = (2/3)·1e-12 < 1e-12. -/
def Xc1 : List (List ℚ) :=
  [[1 / 1000000, 0], [0, 1 / 1000000], [1 / 1000000, 1 / 1000000]]

/-- Targets for the C1 counterexample, exactly `y = 2 + 3·x1 - x2` on the
rows of `Xc1`. -/
def yc1 : List ℚ :=
  [2 + 3 / 1000000, 2 - 1 / 1000000, 2 + 2 / 1000000]

/-! ### Claim C8 definitions: the Prediction Ranker
    (src/explanation.md:495-510).

    The composite score `final = (lr_norm × 0.4) + (profile_norm × 0.4) +
    ((winPct - 0.5) × 0.2)` and the min-max normalization
    `(score - min) / (max - min)` are from src/explanation.md; the
    `max == min` guard ("normalized value is 0 for all") and the
    confidence ratio `final_top / Σ final_i` are modelled from the spec
    (§4.4). -/

/-- A projected candidate team: raw regression score, championship profile,
and current win percentage. -/
structure Candidate where
  regressionScore : ℚ
  championshipProfile : ℚ
  winPct : ℚ
deriving DecidableEq, Repr

/-- Minimum of a score list (0 for the empty list, which never occurs). -/
def listMin (l : List ℚ) : ℚ := l.foldl min (l.headD 0)

/-- Maximum of a score list (0 for the empty list, which never occurs). -/
def listMax (l : List ℚ) : ℚ := l.foldl max (l.headD 0)

/-- Min-max normalization of a score list
(src/explanation.md:507-509), with the `max == min` guard modelled from
the spec (§4.4): all values normalize to 0 in that case. -/
def minmax_normalize (l : List ℚ) : List ℚ :=
  let mn := listMin l
  let mx := listMax l
  l.map fun v => if mx = mn then 0 else (v - mn) / (mx - mn)

/-- Model of the composite `final_prediction` scores
(src/explanation.md:495-510): normalize the regression scores and the
championship profiles across the candidate set, then
`final = lr_norm × 0.4 + profile_norm × 0.4 + (winPct - 0.5) × 0.2`. -/
def final_prediction (cands : List Candidate) : List ℚ :=
  let lrNorm := minmax_normalize (cands.map fun c => c.regressionScore)
  let profNorm := minmax_normalize (cands.map fun c => c.championshipProfile)
  (List.range cands.length).map fun i =>
    lrNorm.getD i 0 * (2 / 5) + profNorm.getD i 0 * (2 / 5) +
      ((cands.getD i ⟨0, 0, 0⟩).winPct - 1 / 2) * (1 / 5)

/-- Index of the first maximal score, i.e. the rank-1 candidate after
sorting descending with the earlier candidate winning ties. -/
def idxOfMaxAux : List ℚ → ℕ → ℕ → ℚ → ℕ
  | [], _, best, _ => best
  | v :: vs, i, best, bv =>
      if bv < v then idxOfMaxAux vs (i + 1) i v
      else idxOfMaxAux vs (i + 1) best bv

/-- Index of the rank-1 candidate in a score list. -/
def idxOfMax : List ℚ → ℕ
  | [] => 0
  | v :: vs => idxOfMaxAux vs 1 0 v

/-! ### Claim C9 definitions: unique Super Bowl winner indicator per year
    (src/create-master-csv.js, src/scraper-csv.js).

    `ensureSuperBowlWinnerIncluded` (src/scraper-csv.js:601-639) appends
    the year's Super Bowl winner to the scraped standings when it is
    missing; the master-CSV builder (src/create-master-csv.js:66-77,
    117-156) collects the set of team names from the (conference and
    division) standings — a JS `Set`, modelled as insertion-ordered
    de-duplication — and emits one record per team with
    `superbowl_winner: superBowlInfo.winner === teamName ? 1 : 0`.
    Only team names are observed by the claim, so standings rows are
    modelled by their team-name strings, and the AFC/NFC routing of the
    appended winner (which the union of both conferences erases) is not
    modelled. -/

/-- Model of `ensureSuperBowlWinnerIncluded` (src/scraper-csv.js:601-639)
at the level of the year's team-name collection: append the winner when a
winner entry exists and no standings row carries its name. -/
def ensureSuperBowlWinnerIncluded (winner : Option String)
    (teams : List String) : List String :=
  match winner with
  | none => teams
  | some w => if w ∈ teams then teams else teams ++ [w]

/-- One step of JS `Set` insertion: keep the first occurrence. -/
def addUnique (acc : List String) (t : String) : List String :=
  if t ∈ acc then acc else acc ++ [t]

/-- Model of `allTeams = new Set(); ... allTeams.add(team.team)`
(src/create-master-csv.js:49-64): insertion-ordered de-duplication. -/
def collectTeams (teams : List String) : List String :=
  teams.foldl addUnique []

/-- Model of one year of `processAllData` + `createComprehensiveRecord`
(src/create-master-csv.js:38-156) restricted to the fields the claim
observes: after ensuring the winner is present in the conference
standings, one record `(team, superbowl_winner)` is created per distinct
team name, with indicator `1` exactly when the name equals the year's
Super Bowl winner. -/
def createComprehensiveRecords (winner : Option String)
    (confTeams divTeams : List String) : List (String × ℕ) :=
  (collectTeams (ensureSuperBowlWinnerIncluded winner confTeams ++ divTeams)).map
    fun t => (t, if winner = some t then 1 else 0)

/-! ### Claim C10 definitions: CSV column cleaning
    (src/unnamed/part_002, `cleanCSV`).

    The model starts from the parsed representation (header list plus data
    rows, the output of `parseCSVLine`), which is what the claim is about;
    re-serialization is I/O glue outside the claim. -/

/-- Model of the invalid-marker test inside `cleanCSV`
(src/unnamed/part_002:56-68): a cell is invalid when its trimmed value is
empty, `undefined`, `undefined-undefined-undefined`, `NaN`, or a quoted
form of one of these. -/
def isInvalidCell (s : String) : Bool :=
  let t := s.trim
  t == "" || t == "undefined" || t == "undefined-undefined-undefined" ||
    t == "NaN" || t == "\"\"" || t == "\"undefined\"" ||
    t == "\"undefined-undefined-undefined\"" || t == "\"NaN\""

/-- Model of the cell access `row[colIndex]` followed by `(value || '')`:
a missing cell reads as the empty string. -/
def cellAt (row : List String) (i : ℕ) : String := row.getD i ""

/-- Model of the `allInvalid` column check (src/unnamed/part_002:53-68):
every data-row value of column `i` is an invalid marker. -/
def allInvalidCol (rows : List (List String)) (i : ℕ) : Bool :=
  rows.all fun row => isInvalidCell (cellAt row i)

/-- Model of the `columnsToKeep` loop (src/unnamed/part_002:47-75): the
indices of the columns that are not entirely invalid, in increasing
order. -/
def columnsToKeep (headers : List String) (rows : List (List String)) :
    List ℕ :=
  (List.range headers.length).filter fun i => ! allInvalidCol rows i

/-- Model of `cleanCSV` (src/unnamed/part_002:47-99) on the parsed CSV:
the kept headers and, for every data row, the kept cells (`row[index] ||
''`, so missing cells become the empty string). -/
def cleanCSV (headers : List String) (rows : List (List String)) :
    List String × List (List String) :=
  let keep := columnsToKeep headers rows
  (keep.map fun i => headers.getD i "",
    rows.map fun row => keep.map fun i => cellAt row i)

/-! ## Theorems -/

/-! ### Finite-sum and dot-product lemmas -/

theorem rsum_zero (f : ℕ → ℚ) : rsum 0 f = 0 := rfl

theorem rsum_succ (n : ℕ) (f : ℕ → ℚ) : rsum (n + 1) f = rsum n f + f n := by
  simp [rsum, List.range_succ]

theorem rsum_succ_left (n : ℕ) (f : ℕ → ℚ) :
    rsum (n + 1) f = f 0 + rsum n (fun i => f (i + 1)) := by
  simp only [rsum, List.range_succ_eq_map, List.map_cons, List.map_map,
    List.sum_cons, Function.comp]
  rfl

theorem rsum_one (f : ℕ → ℚ) : rsum 1 f = f 0 := by
  rw [show (1 : ℕ) = 0 + 1 from rfl, rsum_succ, rsum_zero, zero_add]

theorem rsum_two (f : ℕ → ℚ) : rsum 2 f = f 0 + f 1 := by
  rw [show (2 : ℕ) = 1 + 1 from rfl, rsum_succ, rsum_one]

theorem rsum_three (f : ℕ → ℚ) : rsum 3 f = f 0 + f 1 + f 2 := by
  rw [show (3 : ℕ) = 2 + 1 from rfl, rsum_succ, rsum_two]

theorem rsum_congr {n : ℕ} {f g : ℕ → ℚ} (h : ∀ i, i < n → f i = g i) :
    rsum n f = rsum n g := by
  induction n with
  | zero => rfl
  | succ m ih =>
      rw [rsum_succ, rsum_succ, ih (fun i hi => h i (Nat.lt_succ_of_lt hi)),
        h m (Nat.lt_succ_self m)]

theorem rsum_add (n : ℕ) (f g : ℕ → ℚ) :
    rsum n (fun i => f i + g i) = rsum n f + rsum n g := by
  induction n with
  | zero => simp [rsum_zero]
  | succ m ih => rw [rsum_succ, rsum_succ, rsum_succ, ih]; ring

theorem rsum_mul_left (n : ℕ) (c : ℚ) (f : ℕ → ℚ) :
    rsum n (fun i => c * f i) = c * rsum n f := by
  induction n with
  | zero => simp [rsum_zero]
  | succ m ih => rw [rsum_succ, rsum_succ, ih]; ring

theorem rsum_swap (n m : ℕ) (f : ℕ → ℕ → ℚ) :
    rsum n (fun i => rsum m (fun j => f i j)) =
      rsum m (fun j => rsum n (fun i => f i j)) := by
  induction n with
  | zero => simp [rsum_zero]; induction m with
      | zero => rfl
      | succ k ihm => rw [rsum_succ, ← ihm]; simp [rsum_zero]
  | succ k ih =>
      rw [rsum_succ, ih, ← rsum_add]
      exact rsum_congr fun j _ => (rsum_succ k fun i => f i j).symm

theorem rsum_nonneg {n : ℕ} {f : ℕ → ℚ} (h : ∀ i, i < n → 0 ≤ f i) :
    0 ≤ rsum n f := by
  induction n with
  | zero => simp [rsum_zero]
  | succ m ih =>
      rw [rsum_succ]
      have h1 := ih fun i hi => h i (Nat.lt_succ_of_lt hi)
      have h2 := h m (Nat.lt_succ_self m)
      linarith

theorem rsum_eq_zero_of_nonneg {n : ℕ} {f : ℕ → ℚ}
    (hnn : ∀ i, i < n → 0 ≤ f i) (hz : rsum n f = 0) :
    ∀ i, i < n → f i = 0 := by
  induction n with
  | zero => intro i hi; omega
  | succ m ih =>
      rw [rsum_succ] at hz
      have h1 : 0 ≤ rsum m f := rsum_nonneg fun i hi => hnn i (Nat.lt_succ_of_lt hi)
      have h2 : 0 ≤ f m := hnn m (Nat.lt_succ_self m)
      have hfm : f m = 0 := by linarith
      have hs : rsum m f = 0 := by linarith
      intro i hi
      rcases Nat.lt_succ_iff_lt_or_eq.mp hi with h | h
      · exact ih (fun j hj => hnn j (Nat.lt_succ_of_lt hj)) hs i h
      · rw [h]; exact hfm

theorem rsum_const_zero (n : ℕ) : rsum n (fun _ => 0) = 0 := by
  induction n with
  | zero => rfl
  | succ m ih => rw [rsum_succ, ih, add_zero]

theorem listDot_nil_left (b : List ℚ) : listDot [] b = 0 := rfl

theorem listDot_cons_cons (x : ℚ) (a : List ℚ) (y : ℚ) (b : List ℚ) :
    listDot (x :: a) (y :: b) = x * y + listDot a b := by
  simp [listDot]

theorem listDot_eq_rsum :
    ∀ (a b : List ℚ), a.length = b.length →
      listDot a b = rsum a.length (fun i => a.getD i 0 * b.getD i 0) := by
  intro a
  induction a with
  | nil => intro b _; simp [listDot_nil_left, rsum_zero]
  | cons x xs ih =>
      intro b hb
      cases b with
      | nil => simp at hb
      | cons y ys =>
          simp only [List.length_cons] at hb
          rw [listDot_cons_cons, List.length_cons, rsum_succ_left]
          simp only [List.getD_cons_zero, List.getD_cons_succ]
          rw [ih ys (by omega)]

/-- Helper: entry `i` of `(range n).map f`. -/
theorem getD_map_range {α : Type} (f : ℕ → α) {n i : ℕ} (h : i < n) (d : α) :
    ((List.range n).map f).getD i d = f i := by
  have hlen : i < ((List.range n).map f).length := by simpa using h
  rw [List.getD_eq_getElem _ _ hlen]
  simp

/-! ### Claim C5 -/

/-- Claim C5 (code_bug evidence). At the failing input
`wins = losses = ties = 0` the Wikipedia variant evaluates `0 / 0`, which in
JavaScript is `NaN` (no finite value, modelled `none`), contradicting the
claim that the computed winPct is 0 when the total is 0 and is never NaN;
the guarded NFL.com variant at src/scraper-csv.js:501 returns 0 as the
claim (and spec §4.1) require. On every record with at least one game both
variants agree with the claimed formula. -/
theorem c5_code_bug_eval :
    wikipediaWinPct 0 0 0 = none ∧
    nflComWinPct 0 0 0 = 0 ∧
    wikipediaWinPct 10 6 1 = some (10 / 17) ∧
    nflComWinPct 10 6 1 = 10 / 17 := by
  refine ⟨?_, ?_, ?_, ?_⟩ <;> norm_num [wikipediaWinPct, nflComWinPct, jsDiv]

/-! ### Claim C6 -/

/-- Claim C6 (counterexample). On the record string `"1-0-1"` (one win, no
losses, one tie) `calculateWinPct` returns 3/4 — the tie contributes half a
win to the numerator — while the inline variant of the same computation
returns 1/2, which is the value `wins / total` the claim asserts for every
variant. The two variants disagree on the same record string, refuting the
claim. -/
theorem c6_counterexample :
    calculateWinPct "1-0-1" = 3 / 4 ∧
    inlineSplitWinPct "1-0-1" = 1 / 2 ∧
    calculateWinPct "1-0-1" ≠ inlineSplitWinPct "1-0-1" := by
  have h1 : parseRecord "1-0-1" = ⟨1, 0, 1⟩ := by decide
  have hne : ("1-0-1" : String) ≠ "" := by decide
  have hA : calculateWinPct "1-0-1" = 3 / 4 := by
    simp only [calculateWinPct, if_neg hne, h1]
    norm_num [recTotal]
  have hB : inlineSplitWinPct "1-0-1" = 1 / 2 := by
    simp only [inlineSplitWinPct, if_neg hne, h1]
    norm_num [recTotal]
  exact ⟨hA, hB, by rw [hA, hB]; norm_num⟩

/-- Claim C6 (amended). For every record string: the half-win tie rule of
`calculateWinPct` and the `wins / max(1, total)` rule of the inline variant
agree whenever the parsed record has no ties; when the record has at least
one game, `calculateWinPct` exceeds the inline value by exactly
`(0.5 * ties) / total`; and `calculateWinPct` always lies in [0, 1]. -/
theorem c6_amended (s : String) :
    ((parseRecord s).ties = 0 → calculateWinPct s = inlineSplitWinPct s) ∧
    (0 < recTotal (parseRecord s) →
      calculateWinPct s - inlineSplitWinPct s =
        ((1 / 2) * ((parseRecord s).ties : ℚ)) / (recTotal (parseRecord s) : ℚ)) ∧
    0 ≤ calculateWinPct s ∧ calculateWinPct s ≤ 1 := by
  by_cases hs : s = ""
  · subst hs
    have hz : parseRecord "" = ⟨0, 0, 0⟩ := by decide
    simp [calculateWinPct, inlineSplitWinPct, hz, recTotal]
  · simp only [calculateWinPct, inlineSplitWinPct, if_neg hs]
    set r := parseRecord s with hr
    by_cases ht : recTotal r = 0
    · have hw : r.wins = 0 := by
        have := ht; unfold recTotal at this; omega
      simp [ht, hw]
    · have htpos : 0 < recTotal r := Nat.pos_of_ne_zero ht
      have hmax : max 1 (recTotal r) = recTotal r := Nat.max_eq_right htpos
      have htq : (0 : ℚ) < (recTotal r : ℚ) := by exact_mod_cast htpos
      have hwle : (r.wins : ℚ) + (1 / 2) * (r.ties : ℚ) ≤ (recTotal r : ℚ) := by
        have h1 : r.wins + r.ties ≤ recTotal r := by unfold recTotal; omega
        have h2 : ((r.wins : ℚ) + (r.ties : ℚ)) ≤ (recTotal r : ℚ) := by
          exact_mod_cast h1
        have h3 : (0 : ℚ) ≤ (r.ties : ℚ) := by positivity
        linarith
      refine ⟨?_, ?_, ?_, ?_⟩
      · intro hties
        simp only [if_neg ht, hmax, hties, Nat.cast_zero]
        ring
      · intro _
        simp only [if_neg ht, hmax]
        field_simp
        ring
      · simp only [if_neg ht]
        positivity
      · simp only [if_neg ht]
        rw [div_le_one htq]
        exact hwle

/-- Claim C6 (witness for the amended theorem): instantiated at the record
string `"1-0-1"`, whose total of games is positive, the gap between the two
variants is exactly `(0.5 * 1) / 2 = 1/4`. -/
theorem c6_amended_witness :
    0 < recTotal (parseRecord "1-0-1") ∧
    calculateWinPct "1-0-1" - inlineSplitWinPct "1-0-1" =
      ((1 / 2) * (((parseRecord "1-0-1").ties : ℕ) : ℚ)) /
        ((recTotal (parseRecord "1-0-1") : ℕ) : ℚ) :=
  ⟨by decide, (c6_amended "1-0-1").2.1 (by decide)⟩

/-! ### Claim C7 -/

/-- Claim C7. For inputs that all lie in [0, 1] the championship profile
equals the fixed-weight combination 0.4·winPct + 0.3·scoringEfficiency +
0.15·homeRoadConsistency + 0.15·strengthOfSchedule, and — as the weights
are nonnegative and sum to 1 — the composite itself lies in [0, 1]. -/
theorem c7_championship_profile (w se hrc sos : ℚ)
    (hw0 : 0 ≤ w) (hw1 : w ≤ 1) (hse0 : 0 ≤ se) (hse1 : se ≤ 1)
    (hh0 : 0 ≤ hrc) (hh1 : hrc ≤ 1) (hs0 : 0 ≤ sos) (hs1 : sos ≤ 1) :
    championship_profile w se hrc sos =
      (2 / 5) * w + (3 / 10) * se + (3 / 20) * hrc + (3 / 20) * sos ∧
    0 ≤ championship_profile w se hrc sos ∧
    championship_profile w se hrc sos ≤ 1 := by
  unfold championship_profile
  refine ⟨by ring, by linarith, by linarith⟩

/-- Claim C7 (witness): a concrete record with winPct 0.8, scoring
efficiency 0.6, consistency 0.9 and strength of schedule 0.5 has profile
0.71, inside [0, 1]. -/
theorem c7_witness :
    championship_profile (4 / 5) (3 / 5) (9 / 10) (1 / 2) =
      (2 / 5) * (4 / 5) + (3 / 10) * (3 / 5) + (3 / 20) * (9 / 10) +
        (3 / 20) * (1 / 2) ∧
    0 ≤ championship_profile (4 / 5) (3 / 5) (9 / 10) (1 / 2) ∧
    championship_profile (4 / 5) (3 / 5) (9 / 10) (1 / 2) ≤ 1 :=
  c7_championship_profile (4 / 5) (3 / 5) (9 / 10) (1 / 2)
    (by norm_num) (by norm_num) (by norm_num) (by norm_num)
    (by norm_num) (by norm_num) (by norm_num) (by norm_num)

/-! ### Claim C3 -/

/-- Claim C3. Whenever the correlation denominator is 0 — i.e. the product
of the two centred sums of squares is 0 because at least one sequence has
zero variance — `manual_correlation` returns exactly 0 (a defined value:
no NaN, no division by zero); in particular it returns 0 whenever the
second sequence is constant. -/
theorem c3_zero_variance_correlation :
    (∀ x y : List ℚ, x.length = y.length → 2 ≤ x.length →
      corrDenomSq x y = 0 → manual_correlation x y = 0) ∧
    (∀ (x : List ℚ) (c : ℚ), 2 ≤ x.length →
      manual_correlation x (List.replicate x.length c) = 0) := by
  constructor
  · intro x y _ _ hden
    simp [manual_correlation, hden]
  · intro x c hn
    have hnz : (x.length : ℚ) ≠ 0 := by
      have : 0 < x.length := by omega
      exact_mod_cast Nat.pos_iff_ne_zero.mp this
    have hmean : (List.replicate x.length c).sum / (x.length : ℚ) = c := by
      rw [List.sum_replicate, nsmul_eq_mul]
      field_simp
    have hvary : manual_correlation_vary x (List.replicate x.length c) = 0 := by
      unfold manual_correlation_vary
      have hterm : ∀ i, i < x.length →
          ((List.replicate x.length c).getD i 0 -
            (List.replicate x.length c).sum / (x.length : ℚ)) ^ 2 = 0 := by
        intro i hi
        rw [hmean, List.getD_eq_getElem _ _ (by simpa using hi),
          List.getElem_replicate]
        ring
      calc rsum x.length (fun i =>
            ((List.replicate x.length c).getD i 0 -
              (List.replicate x.length c).sum / (x.length : ℚ)) ^ 2)
          = rsum x.length (fun _ => 0) := rsum_congr hterm
        _ = 0 := rsum_const_zero _
    have hden : corrDenomSq x (List.replicate x.length c) = 0 := by
      unfold corrDenomSq
      rw [hvary, mul_zero]
    simp [manual_correlation, hden]

/-- Claim C3 (witness): on `x = [1, 2]` and the constant sequence `[5, 5]`
the denominator is 0 and the correlation evaluates to 0, and likewise for
the replicated constant 7. -/
theorem c3_witness :
    corrDenomSq [1, 2] [5, 5] = 0 ∧
    manual_correlation [1, 2] [5, 5] = 0 ∧
    manual_correlation [1, 2] (List.replicate (2 : ℕ) 7) = 0 := by
  have hden : corrDenomSq [1, 2] [5, 5] = 0 := by
    norm_num [corrDenomSq, manual_correlation_varx, manual_correlation_vary,
      rsum_two, List.getD_cons_zero, List.getD_cons_succ]
  refine ⟨hden, c3_zero_variance_correlation.1 [1, 2] [5, 5] (by decide)
    (by decide) hden, ?_⟩
  have h := c3_zero_variance_correlation.2 [1, 2] 7 (by decide)
  simpa using h

/-! ### Claim C4 -/

/-- Symmetry of the correlation formula for equal-length sequences: the
numerator is symmetric term by term and the denominator is a product of the
two variances, which commutes. -/
theorem manual_correlation_symm (x y : List ℚ) (h : x.length = y.length) :
    manual_correlation x y = manual_correlation y x := by
  have hnum : manual_correlation_num y x = manual_correlation_num x y := by
    unfold manual_correlation_num
    rw [← h]
    exact rsum_congr fun i _ => by ring
  have hvar : manual_correlation_vary x y = manual_correlation_varx y := by
    unfold manual_correlation_vary manual_correlation_varx
    rw [h]
  have hvar2 : manual_correlation_vary y x = manual_correlation_varx x := by
    unfold manual_correlation_vary manual_correlation_varx
    rw [← h]
  have hden : corrDenomSq y x = corrDenomSq x y := by
    unfold corrDenomSq
    rw [hvar, hvar2, mul_comm]
  unfold manual_correlation
  rw [hden, hnum]

/-- Claim C4. For every collection of equal-length numeric columns the
correlation matrix is square of size k = number of columns, symmetric
(`M[i][j] = M[j][i]`), and its diagonal entries are exactly 1 by
construction. -/
theorem c4_correlation_matrix (cols : List (List ℚ)) (L : ℕ)
    (hlen : ∀ c ∈ cols, c.length = L) :
    (calculate_correlation_matrix cols).length = cols.length ∧
    (∀ row ∈ calculate_correlation_matrix cols, row.length = cols.length) ∧
    (∀ i j, i < cols.length → j < cols.length →
      ((calculate_correlation_matrix cols).getD i []).getD j 0 =
        ((calculate_correlation_matrix cols).getD j []).getD i 0) ∧
    (∀ i, i < cols.length →
      ((calculate_correlation_matrix cols).getD i []).getD i 0 = 1) := by
  refine ⟨by simp [calculate_correlation_matrix], ?_, ?_, ?_⟩
  · intro row hrow
    unfold calculate_correlation_matrix at hrow
    obtain ⟨i, _, rfl⟩ := List.mem_map.mp hrow
    simp
  · intro i j hi hj
    unfold calculate_correlation_matrix
    rw [getD_map_range _ hi, getD_map_range _ hj, getD_map_range _ hj,
      getD_map_range _ hi]
    by_cases hij : i = j
    · simp [hij]
    · rw [if_neg hij, if_neg (Ne.symm hij)]
      have hxi : (cols.getD i []).length = L :=
        hlen _ (by rw [List.getD_eq_getElem _ _ hi]; exact List.getElem_mem _)
      have hxj : (cols.getD j []).length = L :=
        hlen _ (by rw [List.getD_eq_getElem _ _ hj]; exact List.getElem_mem _)
      exact manual_correlation_symm _ _ (hxi.trans hxj.symm)
  · intro i hi
    unfold calculate_correlation_matrix
    rw [getD_map_range _ hi, getD_map_range _ hi, if_pos rfl]

/-- Claim C4 (witness): for the two equal-length columns `[1, 2]` and
`[2, 1]` the matrix is 2×2, symmetric, with unit diagonal. -/
theorem c4_witness :
    (calculate_correlation_matrix [[1, 2], [2, 1]]).length = 2 ∧
    (∀ row ∈ calculate_correlation_matrix [[1, 2], [2, 1]], row.length = 2) ∧
    (∀ i j, i < 2 → j < 2 →
      ((calculate_correlation_matrix [[1, 2], [2, 1]]).getD i []).getD j 0 =
        ((calculate_correlation_matrix [[1, 2], [2, 1]]).getD j []).getD i 0) ∧
    (∀ i, i < 2 →
      ((calculate_correlation_matrix [[1, 2], [2, 1]]).getD i []).getD i 0 = 1) := by
  have h := c4_correlation_matrix [[1, 2], [2, 1]] 2 (by decide)
  simpa using h

/-! ### Claim C8 -/

/-- Claim C8. For a candidate set of exactly two projected teams with
championship profiles 0.70 and 0.40, identical regression scores, and
equal win percentages (any value in [0, 1]): the regression signal
normalizes to 0 for both (max = min), the profile signal normalizes to 1
and 0, so the first candidate's final score exceeds the second's — the
ranker puts it at rank 1 — and its confidence ratio
`final_top / Σ final_i` exceeds 1/2 (i.e. 50%). -/
theorem c8_two_candidate_ranking (r w : ℚ) (hw0 : 0 ≤ w) (hw1 : w ≤ 1) :
    idxOfMax (final_prediction [⟨r, 7 / 10, w⟩, ⟨r, 2 / 5, w⟩]) = 0 ∧
    (final_prediction [⟨r, 7 / 10, w⟩, ⟨r, 2 / 5, w⟩]).getD 1 0 <
      (final_prediction [⟨r, 7 / 10, w⟩, ⟨r, 2 / 5, w⟩]).getD 0 0 ∧
    1 / 2 < (final_prediction [⟨r, 7 / 10, w⟩, ⟨r, 2 / 5, w⟩]).getD 0 0 /
      (final_prediction [⟨r, 7 / 10, w⟩, ⟨r, 2 / 5, w⟩]).sum := by
  have hn1 : minmax_normalize [r, r] = [0, 0] := by
    unfold minmax_normalize listMin listMax
    simp
  have hn2 : minmax_normalize [7 / 10, 2 / 5] = [1, 0] := by
    unfold minmax_normalize listMin listMax
    have hmin : min (7 / 10 : ℚ) (2 / 5) = 2 / 5 := by
      rw [min_def]; norm_num
    have hmax : max (7 / 10 : ℚ) (2 / 5) = 7 / 10 := by
      rw [max_def]; norm_num
    simp only [List.headD_cons, List.foldl_cons, List.foldl_nil, min_self,
      max_self, hmin, hmax, List.map_cons, List.map_nil]
    norm_num
  have hfp : final_prediction [⟨r, 7 / 10, w⟩, ⟨r, 2 / 5, w⟩] =
      [2 / 5 + (w - 1 / 2) * (1 / 5), (w - 1 / 2) * (1 / 5)] := by
    unfold final_prediction
    simp only [List.map_cons, List.map_nil, hn1, hn2]
    have hrange : List.range ([(⟨r, 7 / 10, w⟩ : Candidate),
        ⟨r, 2 / 5, w⟩]).length = [0, 1] := rfl
    rw [hrange]
    simp only [List.map_cons, List.map_nil, List.getD_cons_zero,
      List.getD_cons_succ]
    norm_num
  rw [hfp]
  have hlt : (w - 1 / 2) * (1 / 5) < 2 / 5 + (w - 1 / 2) * (1 / 5) := by
    linarith
  refine ⟨?_, ?_, ?_⟩
  · unfold idxOfMax idxOfMaxAux
    rw [if_neg (not_lt.mpr (le_of_lt hlt))]
    rfl
  · simpa using hlt
  · have hsum : ([2 / 5 + (w - 1 / 2) * (1 / 5), (w - 1 / 2) * (1 / 5)] :
        List ℚ).sum = 1 / 5 + (2 / 5) * w := by
      simp; ring
    rw [hsum]
    have hpos : (0 : ℚ) < 1 / 5 + (2 / 5) * w := by linarith
    rw [lt_div_iff hpos]
    simp only [List.getD_cons_zero]
    linarith

/-- Claim C8 (witness): with identical regression scores 0.3 and win
percentage 0.5 for both candidates, the profile-0.70 candidate is ranked
first and its confidence ratio exceeds 50%. -/
theorem c8_witness :
    idxOfMax (final_prediction [⟨3 / 10, 7 / 10, 1 / 2⟩,
      ⟨3 / 10, 2 / 5, 1 / 2⟩]) = 0 ∧
    (final_prediction [⟨3 / 10, 7 / 10, 1 / 2⟩,
      ⟨3 / 10, 2 / 5, 1 / 2⟩]).getD 1 0 <
      (final_prediction [⟨3 / 10, 7 / 10, 1 / 2⟩,
        ⟨3 / 10, 2 / 5, 1 / 2⟩]).getD 0 0 ∧
    1 / 2 < (final_prediction [⟨3 / 10, 7 / 10, 1 / 2⟩,
      ⟨3 / 10, 2 / 5, 1 / 2⟩]).getD 0 0 /
      (final_prediction [⟨3 / 10, 7 / 10, 1 / 2⟩,
        ⟨3 / 10, 2 / 5, 1 / 2⟩]).sum :=
  c8_two_candidate_ranking (3 / 10) (1 / 2) (by norm_num) (by norm_num)

/-! ### Claim C9 -/

theorem mem_addUnique (acc : List String) (t a : String) :
    a ∈ addUnique acc t ↔ a ∈ acc ∨ a = t := by
  unfold addUnique
  by_cases h : t ∈ acc
  · rw [if_pos h]
    constructor
    · exact Or.inl
    · rintro (ha | rfl)
      · exact ha
      · exact h
  · rw [if_neg h]
    simp

theorem nodup_addUnique (acc : List String) (t : String) (h : acc.Nodup) :
    (addUnique acc t).Nodup := by
  unfold addUnique
  by_cases ht : t ∈ acc
  · rwa [if_pos ht]
  · rw [if_neg ht]
    simp [List.nodup_append, h, ht]

theorem nodup_foldl_addUnique :
    ∀ (l acc : List String), acc.Nodup → (l.foldl addUnique acc).Nodup := by
  intro l
  induction l with
  | nil => intro acc h; exact h
  | cons t ts ih =>
      intro acc h
      exact ih (addUnique acc t) (nodup_addUnique acc t h)

theorem mem_foldl_addUnique :
    ∀ (l acc : List String) (a : String),
      a ∈ l.foldl addUnique acc ↔ a ∈ acc ∨ a ∈ l := by
  intro l
  induction l with
  | nil => intro acc a; simp
  | cons t ts ih =>
      intro acc a
      rw [List.foldl_cons, ih, mem_addUnique]
      simp only [List.mem_cons]
      tauto

theorem collectTeams_nodup (l : List String) : (collectTeams l).Nodup :=
  nodup_foldl_addUnique l [] List.nodup_nil

theorem mem_collectTeams (l : List String) (a : String) :
    a ∈ collectTeams l ↔ a ∈ l := by
  unfold collectTeams
  rw [mem_foldl_addUnique]
  simp

/-- Claim C9. Whenever the year's Super Bowl winner entry exists, the
records assembled for that year contain exactly one record whose
won-Super-Bowl indicator is 1 — the indicator is 1 precisely on the record
whose team name is the winner, 0 on every other record — regardless of the
scraped conference and division standings (the winner is appended by
`ensureSuperBowlWinnerIncluded` when missing, and the `Set` of team names
never repeats a name). -/
theorem c9_unique_winner_indicator (w : String)
    (confTeams divTeams : List String) :
    (createComprehensiveRecords (some w) confTeams divTeams).countP
      (fun rec => rec.2 == 1) = 1 ∧
    (∀ rec ∈ createComprehensiveRecords (some w) confTeams divTeams,
      (rec.2 = 1 ↔ rec.1 = w)) ∧
    (∀ rec ∈ createComprehensiveRecords (some w) confTeams divTeams,
      rec.2 = 1 ∨ rec.2 = 0) := by
  unfold createComprehensiveRecords
  set teams := collectTeams
    (ensureSuperBowlWinnerIncluded (some w) confTeams ++ divTeams) with hteams
  have hnodup : teams.Nodup := collectTeams_nodup _
  have hwmem : w ∈ teams := by
    rw [hteams, mem_collectTeams, List.mem_append]
    left
    simp only [ensureSuperBowlWinnerIncluded]
    by_cases h : w ∈ confTeams
    · rwa [if_pos h]
    · rw [if_neg h]
      simp
  refine ⟨?_, ?_, ?_⟩
  · rw [List.countP_map]
    have hcong : List.countP
        ((fun rec : String × ℕ => rec.2 == 1) ∘
          (fun t => (t, if some w = some t then 1 else 0))) teams =
        List.countP (fun t => t == w) teams := by
      apply List.countP_congr
      intro t _
      by_cases h : w = t
      · subst h
        simp
      · have h2 : ¬(some w = some t) := by simpa using h
        have h3 : ¬(t = w) := fun hc => h hc.symm
        simp [h2, h3, h]
    rw [hcong]
    have : List.countP (fun t => t == w) teams = teams.count w := rfl
    rw [this]
    exact List.count_eq_one_of_mem hnodup hwmem
  · intro rec hrec
    obtain ⟨t, _, rfl⟩ := List.mem_map.mp hrec
    by_cases h : w = t
    · subst h
      simp
    · have h2 : ¬(some w = some t) := by simpa using h
      have h3 : ¬(t = w) := fun hc => h hc.symm
      simp [h2, h3, h]
  · intro rec hrec
    obtain ⟨t, _, rfl⟩ := List.mem_map.mp hrec
    by_cases h : some w = some t
    · left; simp [h]
    · right; simp [h]

/-! ### Claim C10 -/

/-- Helper: entry `k` of a mapped list. -/
theorem getD_map_of_lt {α β : Type} (f : α → β) (l : List α) {k : ℕ}
    (h : k < l.length) (d : α) (d2 : β) :
    (l.map f).getD k d2 = f (l.getD k d) := by
  have hlen : k < (l.map f).length := by simpa using h
  rw [List.getD_eq_getElem _ _ hlen, List.getD_eq_getElem _ _ h]
  simp

/-- Claim C10. `cleanCSV` keeps exactly the columns with at least one valid
data cell — a column index is kept iff it is in range and some data row has
a value whose trimmed form is not one of the invalid markers — the kept
column indices stay in increasing (original) order, the number of data rows
is unchanged, the cleaned header row is the kept headers, and every cleaned
data row consists of the original cells of the kept columns, with missing
cells read as the empty string. -/
theorem c10_cleanCSV (headers : List String) (rows : List (List String)) :
    (∀ i, i ∈ columnsToKeep headers rows ↔
      i < headers.length ∧ ∃ row ∈ rows, isInvalidCell (cellAt row i) = false) ∧
    List.Sorted (· < ·) (columnsToKeep headers rows) ∧
    (cleanCSV headers rows).1 =
      (columnsToKeep headers rows).map (fun i => headers.getD i "") ∧
    (cleanCSV headers rows).2.length = rows.length ∧
    (∀ k, k < rows.length →
      (cleanCSV headers rows).2.getD k [] =
        (columnsToKeep headers rows).map
          (fun i => cellAt (rows.getD k []) i)) := by
  refine ⟨?_, ?_, rfl, by simp [cleanCSV], ?_⟩
  · intro i
    unfold columnsToKeep allInvalidCol
    rw [List.mem_filter, List.mem_range]
    constructor
    · rintro ⟨hi, hp⟩
      refine ⟨hi, ?_⟩
      by_contra hno
      push_neg at hno
      have hall : rows.all (fun row => isInvalidCell (cellAt row i)) = true :=
        List.all_eq_true.mpr (fun row hrow => by
          cases hcell : isInvalidCell (cellAt row i) with
          | true => rfl
          | false => exact absurd hcell (hno row hrow))
      rw [hall] at hp
      exact absurd hp (by simp)
    · rintro ⟨hi, row, hrow, hcell⟩
      refine ⟨hi, ?_⟩
      cases hall : rows.all (fun row => isInvalidCell (cellAt row i)) with
      | false => simp
      | true =>
          have := (List.all_eq_true.mp hall) row hrow
          rw [hcell] at this
          exact absurd this (by simp)
  · exact (List.sorted_lt_range headers.length).filter _
  · intro k hk
    unfold cleanCSV
    simp only
    exact getD_map_of_lt _ rows hk [] []

/-! ### Gaussian elimination: generic lemmas (claims C1 and C2) -/

theorem rsum_mul_right (n : ℕ) (c : ℚ) (f : ℕ → ℚ) :
    rsum n (fun i => f i * c) = rsum n f * c := by
  induction n with
  | zero => simp [rsum_zero]
  | succ m ih => rw [rsum_succ, rsum_succ, ih]; ring

theorem headD_cons_tail {u : List ℚ} (h : u ≠ []) :
    u = u.headD 0 :: u.tail := by
  cases u with
  | nil => exact absurd rfl h
  | cons a l => rfl

theorem listDot_zipWith_sub (c : ℚ) :
    ∀ (u v ws : List ℚ), u.length = v.length →
      listDot (List.zipWith (fun a b => a - c * b) u v) ws =
        listDot u ws - c * listDot v ws := by
  intro u
  induction u with
  | nil =>
      intro v ws hv
      cases v with
      | nil => simp [listDot_nil_left]
      | cons b bs => simp at hv
  | cons a as ih =>
      intro v ws hv
      cases v with
      | nil => simp at hv
      | cons b bs =>
          cases ws with
          | nil => simp [listDot]
          | cons w wss =>
              simp only [List.length_cons] at hv
              simp only [List.zipWith_cons_cons, listDot_cons_cons]
              rw [ih bs wss (by omega)]
              ring

theorem listDot_add_right :
    ∀ (a x v : List ℚ), x.length = v.length →
      listDot a (List.zipWith (fun s t => s + t) x v) =
        listDot a x + listDot a v := by
  intro a
  induction a with
  | nil => intro x v _; simp [listDot_nil_left]
  | cons h hs ih =>
      intro x v hxv
      cases x with
      | nil =>
          cases v with
          | nil => simp [listDot]
          | cons b bs => simp at hxv
      | cons b bs =>
          cases v with
          | nil => simp at hxv
          | cons d ds =>
              simp only [List.length_cons] at hxv
              simp only [List.zipWith_cons_cons, listDot_cons_cons]
              rw [ih bs ds (by omega)]
              ring

theorem pickPivot_none : ∀ {l : List LinEq}, pickPivot l = none → l = [] := by
  intro l h
  cases l with
  | nil => rfl
  | cons e es =>
      exfalso
      unfold pickPivot at h
      cases hrec : pickPivot es with
      | none => simp only [hrec] at h; exact absurd h (by simp)
      | some pr =>
          obtain ⟨p, rest⟩ := pr
          simp only [hrec] at h
          by_cases hcmp : |headC p| > |headC e|
          · rw [if_pos hcmp] at h; exact absurd h (by simp)
          · rw [if_neg hcmp] at h; exact absurd h (by simp)

theorem pickPivot_perm :
    ∀ {l : List LinEq} {p : LinEq} {rest : List LinEq},
      pickPivot l = some (p, rest) → l.Perm (p :: rest) := by
  intro l
  induction l with
  | nil => intro p rest h; exact absurd h (by simp [pickPivot])
  | cons e es ih =>
      intro p rest h
      unfold pickPivot at h
      cases hrec : pickPivot es with
      | none =>
          have hes : es = [] := pickPivot_none hrec
          simp only [hrec] at h
          injection h with h2
          injection h2 with ha hb
          rw [hes, ← ha, ← hb]
      | some pr =>
          obtain ⟨q, qrest⟩ := pr
          simp only [hrec] at h
          by_cases hcmp : |headC q| > |headC e|
          · rw [if_pos hcmp] at h
            injection h with h2
            injection h2 with ha hb
            rw [← ha, ← hb]
            exact ((ih hrec).cons e).trans (List.Perm.swap q e qrest)
          · rw [if_neg hcmp] at h
            injection h with h2
            injection h2 with ha hb
            rw [← ha, ← hb]

theorem elimStep_coeff_length {p e : LinEq} {n : ℕ}
    (hp : p.1.length = n + 1) (he : e.1.length = n + 1) :
    (elimStep p e).1.length = n := by
  unfold elimStep
  simp only [List.length_zipWith, List.length_tail, hp, he]
  omega

theorem eps_pos : 0 < eps := by norm_num [eps]

theorem solveAux_length :
    ∀ (n : ℕ) (eqns : List LinEq) (xs : List ℚ),
      solveAux n eqns = some xs → xs.length = n := by
  intro n
  induction n with
  | zero =>
      intro eqns xs h
      simp only [solveAux, Option.some.injEq] at h
      rw [← h]
      rfl
  | succ m ih =>
      intro eqns xs h
      simp only [solveAux] at h
      cases hpick : pickPivot eqns with
      | none => simp only [hpick] at h; exact absurd h (by simp)
      | some pr =>
          obtain ⟨p, rest⟩ := pr
          simp only [hpick] at h
          by_cases heps : |headC p| < eps
          · rw [if_pos heps] at h; exact absurd h (by simp)
          · rw [if_neg heps] at h
            cases hrec : solveAux m (rest.map (elimStep p)) with
            | none => simp only [hrec] at h; exact absurd h (by simp)
            | some ys =>
                simp only [hrec, Option.some.injEq] at h
                rw [← h, List.length_cons, ih _ ys hrec]

/-- Soundness of the elimination: a returned vector satisfies every input
equation (for a square system with coefficient rows of the right length). -/
theorem solveAux_sound :
    ∀ (n : ℕ) (eqns : List LinEq) (xs : List ℚ),
      (∀ e ∈ eqns, e.1.length = n) → eqns.length = n →
      solveAux n eqns = some xs → ∀ e ∈ eqns, eqnSat xs e := by
  intro n
  induction n with
  | zero =>
      intro eqns xs _ hlen _ e he
      have hnil : eqns = [] := List.length_eq_zero.mp hlen
      rw [hnil] at he
      exact absurd he (List.not_mem_nil e)
  | succ m ih =>
      intro eqns xs hshape hlen hsolve e he
      simp only [solveAux] at hsolve
      cases hpick : pickPivot eqns with
      | none => simp only [hpick] at hsolve; exact absurd hsolve (by simp)
      | some pr =>
          obtain ⟨p, rest⟩ := pr
          simp only [hpick] at hsolve
          by_cases heps : |headC p| < eps
          · rw [if_pos heps] at hsolve; exact absurd hsolve (by simp)
          · rw [if_neg heps] at hsolve
            cases hrec : solveAux m (rest.map (elimStep p)) with
            | none => simp only [hrec] at hsolve; exact absurd hsolve (by simp)
            | some ys =>
                simp only [hrec, Option.some.injEq] at hsolve
                subst hsolve
                have hperm := pickPivot_perm hpick
                have hplen : p.1.length = m + 1 :=
                  hshape p (hperm.mem_iff.mpr (List.mem_cons_self p rest))
                have hrestlen : ∀ e2 ∈ rest, e2.1.length = m + 1 :=
                  fun e2 h2 =>
                    hshape e2 (hperm.mem_iff.mpr (List.mem_cons_of_mem p h2))
                have hredshape : ∀ e2 ∈ rest.map (elimStep p), e2.1.length = m := by
                  intro e2 h2
                  obtain ⟨e3, h3, rfl⟩ := List.mem_map.mp h2
                  exact elimStep_coeff_length hplen (hrestlen e3 h3)
                have hredlen : (rest.map (elimStep p)).length = m := by
                  have h4 := hperm.length_eq
                  simp only [List.length_cons] at h4
                  rw [List.length_map]
                  omega
                have hsat := ih (rest.map (elimStep p)) ys hredshape hredlen hrec
                have hp0 : headC p ≠ 0 := fun hz =>
                  heps (by rw [hz, abs_zero]; exact eps_pos)
                have hpcons : p.1 = headC p :: p.1.tail :=
                  headD_cons_tail (by intro hnil; rw [hnil] at hplen; simp at hplen)
                have hvmul : headC p *
                    ((p.2 - listDot p.1.tail ys) / headC p) =
                    p.2 - listDot p.1.tail ys := by
                  field_simp
                have hpsat : eqnSat ((p.2 - listDot p.1.tail ys) / headC p :: ys) p := by
                  unfold eqnSat
                  rw [hpcons, listDot_cons_cons, List.tail_cons, hvmul]
                  ring
                have hrsat : ∀ e2 ∈ rest,
                    eqnSat ((p.2 - listDot p.1.tail ys) / headC p :: ys) e2 := by
                  intro e2 h2
                  have he2len : e2.1.length = m + 1 := hrestlen e2 h2
                  have he2cons : e2.1 = headC e2 :: e2.1.tail :=
                    headD_cons_tail (by intro hnil; rw [hnil] at he2len; simp at he2len)
                  have hred := hsat (elimStep p e2) (List.mem_map_of_mem (elimStep p) h2)
                  simp only [eqnSat, elimStep] at hred
                  have htl : e2.1.tail.length = p.1.tail.length := by
                    simp [List.length_tail, hplen, he2len]
                  rw [listDot_zipWith_sub (headC e2 / headC p) _ _ _ htl] at hred
                  unfold eqnSat
                  rw [he2cons, listDot_cons_cons]
                  have hc : headC e2 = (headC e2 / headC p) * headC p := by
                    field_simp
                  calc headC e2 * ((p.2 - listDot p.1.tail ys) / headC p) +
                        listDot e2.1.tail ys
                      = (headC e2 / headC p) *
                          (headC p * ((p.2 - listDot p.1.tail ys) / headC p)) +
                          listDot e2.1.tail ys := by rw [← mul_assoc, ← hc]
                    _ = (headC e2 / headC p) * (p.2 - listDot p.1.tail ys) +
                          listDot e2.1.tail ys := by rw [hvmul]
                    _ = e2.2 := by linarith [hred]
                rcases List.mem_cons.mp (hperm.mem_iff.mp he) with h | h
                · rw [h]; exact hpsat
                · exact hrsat e h

/-- Uniqueness: when the elimination succeeds, every vector of the right
length satisfying all input equations equals the returned one. In
particular a successful run certifies that the system is nonsingular. -/
theorem solveAux_unique :
    ∀ (n : ℕ) (eqns : List LinEq) (xs ys : List ℚ),
      (∀ e ∈ eqns, e.1.length = n) → eqns.length = n →
      solveAux n eqns = some xs → ys.length = n →
      (∀ e ∈ eqns, eqnSat ys e) → ys = xs := by
  intro n
  induction n with
  | zero =>
      intro eqns xs ys _ _ hsolve hys _
      simp only [solveAux, Option.some.injEq] at hsolve
      rw [← hsolve]
      exact List.length_eq_zero.mp hys
  | succ m ih =>
      intro eqns xs ys hshape hlen hsolve hys hsat
      simp only [solveAux] at hsolve
      cases hpick : pickPivot eqns with
      | none => simp only [hpick] at hsolve; exact absurd hsolve (by simp)
      | some pr =>
          obtain ⟨p, rest⟩ := pr
          simp only [hpick] at hsolve
          by_cases heps : |headC p| < eps
          · rw [if_pos heps] at hsolve; exact absurd hsolve (by simp)
          · rw [if_neg heps] at hsolve
            cases hrec : solveAux m (rest.map (elimStep p)) with
            | none => simp only [hrec] at hsolve; exact absurd hsolve (by simp)
            | some zs =>
                simp only [hrec, Option.some.injEq] at hsolve
                subst hsolve
                have hperm := pickPivot_perm hpick
                have hplen : p.1.length = m + 1 :=
                  hshape p (hperm.mem_iff.mpr (List.mem_cons_self p rest))
                have hrestlen : ∀ e2 ∈ rest, e2.1.length = m + 1 :=
                  fun e2 h2 =>
                    hshape e2 (hperm.mem_iff.mpr (List.mem_cons_of_mem p h2))
                have hredshape : ∀ e2 ∈ rest.map (elimStep p), e2.1.length = m := by
                  intro e2 h2
                  obtain ⟨e3, h3, rfl⟩ := List.mem_map.mp h2
                  exact elimStep_coeff_length hplen (hrestlen e3 h3)
                have hredlen : (rest.map (elimStep p)).length = m := by
                  have h4 := hperm.length_eq
                  simp only [List.length_cons] at h4
                  rw [List.length_map]
                  omega
                have hp0 : headC p ≠ 0 := fun hz =>
                  heps (by rw [hz, abs_zero]; exact eps_pos)
                have hpcons : p.1 = headC p :: p.1.tail :=
                  headD_cons_tail (by intro hnil; rw [hnil] at hplen; simp at hplen)
                cases ys with
                | nil => simp at hys
                | cons y0 yt =>
                    have hytlen : yt.length = m := by
                      simp only [List.length_cons] at hys; omega
                    have hpys : eqnSat (y0 :: yt) p :=
                      hsat p (hperm.mem_iff.mpr (List.mem_cons_self p rest))
                    have hpys2 : headC p * y0 + listDot p.1.tail yt = p.2 := by
                      have := hpys
                      unfold eqnSat at this
                      rw [hpcons, listDot_cons_cons] at this
                      exact this
                    have hytsat : ∀ e2 ∈ rest.map (elimStep p), eqnSat yt e2 := by
                      intro e2 h2
                      obtain ⟨e3, h3, rfl⟩ := List.mem_map.mp h2
                      have he3len : e3.1.length = m + 1 := hrestlen e3 h3
                      have he3cons : e3.1 = headC e3 :: e3.1.tail :=
                        headD_cons_tail
                          (by intro hnil; rw [hnil] at he3len; simp at he3len)
                      have he3sat : eqnSat (y0 :: yt) e3 :=
                        hsat e3 (hperm.mem_iff.mpr (List.mem_cons_of_mem p h3))
                      have he3sat2 : headC e3 * y0 + listDot e3.1.tail yt = e3.2 := by
                        have := he3sat
                        unfold eqnSat at this
                        rw [he3cons, listDot_cons_cons] at this
                        exact this
                      simp only [eqnSat, elimStep]
                      have htl : e3.1.tail.length = p.1.tail.length := by
                        simp [List.length_tail, hplen, he3len]
                      rw [listDot_zipWith_sub (headC e3 / headC p) _ _ _ htl]
                      have hc : headC e3 = (headC e3 / headC p) * headC p := by
                        field_simp
                      have hkey : (headC e3 / headC p) * (headC p * y0) =
                          headC e3 * y0 := by
                        rw [← mul_assoc, ← hc]
                      linear_combination he3sat2 - headC e3 / headC p * hpys2 + hkey
                    have hyt : yt = zs :=
                      ih (rest.map (elimStep p)) zs yt hredshape hredlen hrec
                        hytlen hytsat
                    subst hyt
                    have hy0 : y0 = (p.2 - listDot p.1.tail yt) / headC p := by
                      field_simp
                      linarith [hpys2]
                    rw [hy0]

/-- The elimination succeeds exactly when every selected pivot clears the
epsilon threshold. -/
theorem solveAux_isSome_iff :
    ∀ (n : ℕ) (eqns : List LinEq),
      (solveAux n eqns).isSome = pivotsOK n eqns := by
  intro n
  induction n with
  | zero => intro eqns; rfl
  | succ m ih =>
      intro eqns
      cases hpick : pickPivot eqns with
      | none =>
          have h1 : solveAux (m + 1) eqns = none := by
            simp only [solveAux, hpick]
          have h2 : pivotsOK (m + 1) eqns = false := by
            simp only [pivotsOK, hpick]
          rw [h1, h2]
          rfl
      | some pr =>
          obtain ⟨p, rest⟩ := pr
          by_cases heps : |headC p| < eps
          · have h1 : solveAux (m + 1) eqns = none := by
              simp only [solveAux, hpick, if_pos heps]
            have h2 : pivotsOK (m + 1) eqns = false := by
              simp only [pivotsOK, hpick, if_pos heps]
            rw [h1, h2]
            rfl
          · have h2 : pivotsOK (m + 1) eqns =
                pivotsOK m (rest.map (elimStep p)) := by
              simp only [pivotsOK, hpick, if_neg heps]
            cases hrec : solveAux m (rest.map (elimStep p)) with
            | none =>
                have h1 : solveAux (m + 1) eqns = none := by
                  simp only [solveAux, hpick, if_neg heps, hrec]
                rw [h1, h2, ← ih, hrec]
            | some ys =>
                have h1 : solveAux (m + 1) eqns =
                    some ((p.2 - listDot p.1.tail ys) / headC p :: ys) := by
                  simp only [solveAux, hpick, if_neg heps, hrec]
                rw [h1, h2, ← ih, hrec]
                rfl

theorem headD_eq_getD {α : Type} (l : List α) (d : α) :
    l.headD d = l.getD 0 d := by
  cases l <;> rfl

theorem withBias_length (X : List (List ℚ)) :
    (withBias X).length = X.length := by
  simp [withBias]

theorem withBias_getD {X : List (List ℚ)} {k : ℕ} (hk : k < X.length) :
    (withBias X).getD k [] =
      1 :: (List.range (X.headD []).length).map
        (fun j => (X.getD k []).getD j 0) := by
  unfold withBias
  exact getD_map_of_lt _ X hk [] []

theorem withBias_row_length {X : List (List ℚ)} {k : ℕ} (hk : k < X.length) :
    ((withBias X).getD k []).length = (X.headD []).length + 1 := by
  rw [withBias_getD hk]
  simp

theorem withBias_headD (r : List ℚ) (xs : List (List ℚ)) :
    (withBias (r :: xs)).headD [] =
      1 :: (List.range r.length).map (fun j => r.getD j 0) := by
  simp [withBias]

theorem matrix_transpose_length (M : List (List ℚ)) :
    (matrix_transpose M).length = (M.headD []).length := by
  simp [matrix_transpose]

theorem matrix_transpose_getD {M : List (List ℚ)} {i : ℕ}
    (hi : i < (M.headD []).length) :
    (matrix_transpose M).getD i [] =
      (List.range M.length).map (fun k => (M.getD k []).getD i 0) := by
  unfold matrix_transpose
  exact getD_map_range _ hi []

theorem matrix_multiply_length (A B : List (List ℚ)) :
    (matrix_multiply A B).length = A.length := by
  simp [matrix_multiply]

theorem matrix_multiply_getD {A B : List (List ℚ)} {i : ℕ}
    (hi : i < A.length) :
    (matrix_multiply A B).getD i [] =
      (List.range (B.headD []).length).map
        (fun j => rsum (A.headD []).length
          (fun k => (A.getD i []).getD k 0 * (B.getD k []).getD j 0)) := by
  unfold matrix_multiply
  exact getD_map_of_lt _ A hi [] []

theorem withBias_headD_length {X : List (List ℚ)} (hX : X ≠ []) :
    ((withBias X).headD []).length = (X.headD []).length + 1 := by
  cases X with
  | nil => exact absurd rfl hX
  | cons r xs =>
      rw [withBias_headD]
      simp

theorem normalMatrix_length {X : List (List ℚ)} (hX : X ≠ []) :
    (normalMatrix X).length = (X.headD []).length + 1 := by
  unfold normalMatrix
  rw [matrix_multiply_length, matrix_transpose_length,
    withBias_headD_length hX]

theorem normalMatrix_row_length {X : List (List ℚ)} (hX : X ≠ []) :
    ∀ row ∈ normalMatrix X, row.length = (X.headD []).length + 1 := by
  intro row hrow
  unfold normalMatrix matrix_multiply at hrow
  obtain ⟨arow, _, rfl⟩ := List.mem_map.mp hrow
  rw [List.length_map, List.length_range, withBias_headD_length hX]

/-- Entry `i` of the transpose of the bias-augmented design matrix, seen as
a row of length `n`. -/
theorem transpose_withBias_getD {X : List (List ℚ)} (hX : X ≠ []) {i k : ℕ}
    (hi : i < (X.headD []).length + 1) (hk : k < X.length) :
    ((matrix_transpose (withBias X)).getD i []).getD k 0 =
      ((withBias X).getD k []).getD i 0 := by
  have hi2 : i < ((withBias X).headD []).length := by
    rw [withBias_headD_length hX]; exact hi
  rw [matrix_transpose_getD hi2, withBias_length]
  exact getD_map_range _ hk 0

/-- The key algebraic bridge: a dot product against row `i` of the normal
matrix is the `X`-weighted sum of dot products against the rows of the
bias-augmented design matrix. -/
theorem normalMatrix_row_dot {X : List (List ℚ)} (hX : X ≠ [])
    {v : List ℚ} (hv : v.length = (X.headD []).length + 1)
    {i : ℕ} (hi : i < (X.headD []).length + 1) :
    listDot ((normalMatrix X).getD i []) v =
      rsum X.length (fun k =>
        ((withBias X).getD k []).getD i 0 *
          listDot ((withBias X).getD k []) v) := by
  have hiT : i < (matrix_transpose (withBias X)).length := by
    rw [matrix_transpose_length, withBias_headD_length hX]; exact hi
  have hrow : (normalMatrix X).getD i [] =
      (List.range (((withBias X).headD []).length)).map
        (fun j => rsum ((matrix_transpose (withBias X)).headD []).length
          (fun k => ((matrix_transpose (withBias X)).getD i []).getD k 0 *
            ((withBias X).getD k []).getD j 0)) := by
    unfold normalMatrix
    exact matrix_multiply_getD hiT
  have hTheadlen : ((matrix_transpose (withBias X)).headD []).length =
      X.length := by
    rw [headD_eq_getD]
    have h0 : 0 < ((withBias X).headD []).length := by
      rw [withBias_headD_length hX]; omega
    rw [matrix_transpose_getD h0]
    rw [List.length_map, List.length_range, withBias_length]
  have hWlen : ((withBias X).headD []).length = (X.headD []).length + 1 :=
    withBias_headD_length hX
  have hrowlen : ((normalMatrix X).getD i []).length =
      (X.headD []).length + 1 := by
    rw [hrow, List.length_map, List.length_range, hWlen]
  rw [listDot_eq_rsum _ _ (by rw [hrowlen, hv]), hrowlen]
  have hstep1 : rsum ((X.headD []).length + 1)
      (fun j => ((normalMatrix X).getD i []).getD j 0 * v.getD j 0) =
      rsum ((X.headD []).length + 1)
        (fun j => rsum X.length (fun k =>
          ((withBias X).getD k []).getD i 0 *
            ((withBias X).getD k []).getD j 0 * v.getD j 0)) := by
    apply rsum_congr
    intro j hj
    have hjW : j < ((withBias X).headD []).length := by rw [hWlen]; exact hj
    rw [hrow, getD_map_range _ hjW 0, hTheadlen, ← rsum_mul_right]
    apply rsum_congr
    intro k hk
    rw [transpose_withBias_getD hX hi hk]
  rw [hstep1, rsum_swap]
  apply rsum_congr
  intro k hk
  have hWk : ((withBias X).getD k []).length = (X.headD []).length + 1 :=
    withBias_row_length hk
  rw [listDot_eq_rsum _ _ (by rw [hWk, hv]), hWk, ← rsum_mul_left]
  apply rsum_congr
  intro j hj
  ring

/-- Entry `i` of the normal-equation vector `X_T y`. -/
theorem normalVector_getD {X : List (List ℚ)} {y : List ℚ} (hX : X ≠ [])
    (hy : y.length = X.length) {i : ℕ} (hi : i < (X.headD []).length + 1) :
    (normalVector X y).getD i 0 =
      rsum X.length (fun k =>
        ((withBias X).getD k []).getD i 0 * y.getD k 0) := by
  have hiT : i < (matrix_transpose (withBias X)).length := by
    rw [matrix_transpose_length, withBias_headD_length hX]; exact hi
  unfold normalVector
  rw [getD_map_of_lt _ _ hiT [] 0, hy]
  apply rsum_congr
  intro k hk
  rw [transpose_withBias_getD hX hi hk]

theorem normalVector_length (X : List (List ℚ)) (y : List ℚ) :
    (normalVector X y).length = (matrix_transpose (withBias X)).length := by
  simp [normalVector]

/-- Decompose a member of the zipped normal system into its row index. -/
theorem mem_zip_getD {A : List (List ℚ)} {b : List ℚ} {e : LinEq}
    (he : e ∈ A.zip b) :
    ∃ i, i < A.length ∧ i < b.length ∧ e = (A.getD i [], b.getD i 0) := by
  obtain ⟨i, hlt, heq⟩ := List.mem_iff_getElem.mp he
  rw [List.length_zip] at hlt
  have hiA : i < A.length := lt_of_lt_of_le hlt (Nat.min_le_left _ _)
  have hib : i < b.length := lt_of_lt_of_le hlt (Nat.min_le_right _ _)
  refine ⟨i, hiA, hib, ?_⟩
  rw [← heq, List.getElem_zip, List.getD_eq_getElem _ _ hiA,
    List.getD_eq_getElem _ _ hib]

/-- Shape facts of the normal system solved inside `fit`. -/
theorem fit_system_facts {X : List (List ℚ)} {y : List ℚ} (hX : X ≠ [])
    (hy : y.length = X.length) :
    (∀ e ∈ (normalMatrix X).zip (normalVector X y),
      e.1.length = (X.headD []).length + 1) ∧
    ((normalMatrix X).zip (normalVector X y)).length =
      (X.headD []).length + 1 := by
  constructor
  · intro e he
    obtain ⟨i, hiA, _, rfl⟩ := mem_zip_getD he
    have : (normalMatrix X).getD i [] ∈ normalMatrix X := by
      rw [List.getD_eq_getElem _ _ hiA]
      exact List.getElem_mem _
    exact normalMatrix_row_length hX _ this
  · rw [List.length_zip, normalMatrix_length hX, normalVector_length,
      matrix_transpose_length, withBias_headD_length hX]
    omega

/-- Any vector that reproduces the targets row by row on the bias-augmented
design matrix satisfies every normal equation. -/
theorem normalEq_sat_of_rows {X : List (List ℚ)} {y : List ℚ} {v : List ℚ}
    (hX : X ≠ []) (hy : y.length = X.length)
    (hv : v.length = (X.headD []).length + 1)
    (hrows : ∀ k, k < X.length →
      listDot ((withBias X).getD k []) v = y.getD k 0) :
    ∀ e ∈ (normalMatrix X).zip (normalVector X y), eqnSat v e := by
  intro e he
  obtain ⟨i, hiA, _, rfl⟩ := mem_zip_getD he
  have hi2 : i < (X.headD []).length + 1 := by
    rw [normalMatrix_length hX] at hiA; exact hiA
  unfold eqnSat
  rw [normalMatrix_row_dot hX hv hi2, normalVector_getD hX hy hi2]
  apply rsum_congr
  intro k hk
  rw [hrows k hk]

/-- A vector annihilated by every row of the bias-augmented design matrix is
annihilated by every row of the normal matrix. -/
theorem normalMatrix_dot_kernel {X : List (List ℚ)} {v : List ℚ}
    (hX : X ≠ []) (hv : v.length = (X.headD []).length + 1)
    (hker : ∀ k, k < X.length →
      listDot ((withBias X).getD k []) v = 0) :
    ∀ i, i < (X.headD []).length + 1 →
      listDot ((normalMatrix X).getD i []) v = 0 := by
  intro i hi
  rw [normalMatrix_row_dot hX hv hi]
  have hz : ∀ k, k < X.length →
      ((withBias X).getD k []).getD i 0 *
        listDot ((withBias X).getD k []) v = 0 := by
    intro k hk
    rw [hker k hk, mul_zero]
  rw [rsum_congr hz, rsum_const_zero]

/-- Unpacking a successful `fit`: the returned `intercept :: coefficients`
vector has length m+1, satisfies every normal equation, and is the unique
such vector of that length (so the normal matrix is nonsingular). -/
theorem fit_some_facts {X : List (List ℚ)} {y : List ℚ} {b0 : ℚ}
    {cs : List ℚ} (hX : X ≠ []) (hy : y.length = X.length)
    (hfit : fit X y = some (b0, cs)) :
    (b0 :: cs).length = (X.headD []).length + 1 ∧
    (∀ e ∈ (normalMatrix X).zip (normalVector X y), eqnSat (b0 :: cs) e) ∧
    (∀ ys : List ℚ, ys.length = (X.headD []).length + 1 →
      (∀ e ∈ (normalMatrix X).zip (normalVector X y), eqnSat ys e) →
      ys = b0 :: cs) := by
  unfold fit at hfit
  cases hge : gaussian_elimination (normalMatrix X) (normalVector X y) with
  | none => simp only [hge] at hfit; exact absurd hfit (by simp)
  | some θ =>
      simp only [hge] at hfit
      cases θ with
      | nil => simp at hfit
      | cons t ts =>
          simp only [Option.some.injEq, Prod.mk.injEq] at hfit
          obtain ⟨rfl, rfl⟩ := hfit
          unfold gaussian_elimination at hge
          rw [normalMatrix_length hX] at hge
          obtain ⟨hshape2, hlen2⟩ := fit_system_facts hX hy
          refine ⟨solveAux_length _ _ _ hge, ?_, ?_⟩
          · exact fun e he =>
              solveAux_sound _ _ _ hshape2 hlen2 hge e he
          · intro ys hyslen hsat
            exact solveAux_unique _ _ _ ys hshape2 hlen2 hge hyslen hsat

theorem rsum_if_single (L p : ℕ) (g : ℕ → ℚ) (hp : p < L) :
    rsum L (fun i => if i = p then g i else 0) = g p := by
  induction L with
  | zero => omega
  | succ M ih =>
      rw [rsum_succ]
      by_cases h : p = M
      · subst h
        rw [if_pos rfl]
        have hz : rsum p (fun i => if i = p then g i else 0) =
            rsum p (fun _ => 0) :=
          rsum_congr (fun i hi => if_neg (by omega))
        rw [hz, rsum_const_zero, zero_add]
      · rw [if_neg (fun hc : M = p => h hc.symm), add_zero]
        exact ih (by omega)

theorem rsum_ite_pair (L p q : ℕ) (g h2 : ℕ → ℚ) (hp : p < L) (hq : q < L)
    (hpq : p ≠ q) :
    rsum L (fun i => if i = p then g i else if i = q then h2 i else 0) =
      g p + h2 q := by
  have hsplit : ∀ i, i < L →
      (if i = p then g i else if i = q then h2 i else 0) =
        (if i = p then g i else 0) + (if i = q then h2 i else 0) := by
    intro i _
    by_cases h1 : i = p
    · subst h1
      rw [if_pos rfl, if_pos rfl, if_neg (by omega : ¬(i = q)), add_zero]
    · rw [if_neg h1, if_neg h1, zero_add]
  rw [rsum_congr hsplit, rsum_add, rsum_if_single L p g hp,
    rsum_if_single L q h2 hq]

theorem unitDiff_length (L p q : ℕ) : (unitDiff L p q).length = L := by
  simp [unitDiff]

theorem unitDiff_getD {L p q i : ℕ} (hi : i < L) :
    (unitDiff L p q).getD i 0 =
      if i = p then 1 else if i = q then -1 else 0 := by
  unfold unitDiff
  exact getD_map_range _ hi 0

theorem listDot_unitDiff {u : List ℚ} {L p q : ℕ} (hu : u.length = L)
    (hp : p < L) (hq : q < L) (hpq : p ≠ q) :
    listDot u (unitDiff L p q) = u.getD p 0 - u.getD q 0 := by
  rw [listDot_eq_rsum u _ (by rw [hu, unitDiff_length]), hu]
  have hpt : ∀ i, i < L →
      u.getD i 0 * (unitDiff L p q).getD i 0 =
        (if i = p then u.getD i 0 else if i = q then -(u.getD i 0) else 0) := by
    intro i hi
    rw [unitDiff_getD hi]
    by_cases h1 : i = p
    · rw [if_pos h1, if_pos h1, mul_one]
    · rw [if_neg h1, if_neg h1]
      by_cases h2 : i = q
      · rw [if_pos h2, if_pos h2]
        ring
      · rw [if_neg h2, if_neg h2, mul_zero]
  rw [rsum_congr hpt,
    rsum_ite_pair L p q (fun i => u.getD i 0) (fun i => -(u.getD i 0)) hp hq hpq]
  ring

theorem withBias_getD_succ {X : List (List ℚ)} {k j : ℕ} (hk : k < X.length)
    (hj : j < (X.headD []).length) :
    ((withBias X).getD k []).getD (j + 1) 0 = (X.getD k []).getD j 0 := by
  rw [withBias_getD hk, List.getD_cons_succ]
  exact getD_map_range _ hj 0

/-- For a 2-feature design matrix, explicit dot product of a bias-augmented
row with a 3-vector. -/
theorem withBias_row_dot3 {X : List (List ℚ)}
    (hm : (X.headD []).length = 2) {k : ℕ} (hk : k < X.length)
    (a b c : ℚ) :
    listDot ((withBias X).getD k []) [a, b, c] =
      a + (X.getD k []).getD 0 0 * b + (X.getD k []).getD 1 0 * c := by
  rw [withBias_getD hk, hm]
  have h2 : (List.range 2).map (fun j => (X.getD k []).getD j 0) =
      [(X.getD k []).getD 0 0, (X.getD k []).getD 1 0] := rfl
  rw [h2]
  simp [listDot]
  ring

theorem getD_zipWith_add {x v : List ℚ} {i : ℕ} (hx : i < x.length)
    (hxv : x.length = v.length) :
    (List.zipWith (fun s t => s + t) x v).getD i 0 =
      x.getD i 0 + v.getD i 0 := by
  have hzlen : i < (List.zipWith (fun s t => s + t) x v).length := by
    rw [List.length_zipWith]
    omega
  rw [List.getD_eq_getElem _ _ hzlen, List.getElem_zipWith,
    List.getD_eq_getElem _ _ hx, List.getD_eq_getElem _ _ (by omega : i < v.length)]

/-- Claim C1 (amended). For every 2-feature design matrix whose targets are
exactly `y = 2 + 3·x1 - x2`, whenever `fit` succeeds — i.e. every pivot of
the Gaussian elimination of the bias-augmented normal matrix clears the
1e-12 threshold, which in particular certifies that that matrix is
nonsingular — it recovers the intercept 2 and the coefficients [3, -1]
exactly (hence within any positive tolerance such as 1e-6), and on the
training rows the mean squared error is 0 and R² is exactly 1. -/
theorem c1_exact_recovery (X : List (List ℚ)) (y : List ℚ) (b0 : ℚ)
    (cs : List ℚ)
    (hshape : ∀ r ∈ X, r.length = 2)
    (hy : y.length = X.length)
    (hlin : ∀ i, i < X.length →
      y.getD i 0 = 2 + 3 * (X.getD i []).getD 0 0 - (X.getD i []).getD 1 0)
    (hfit : fit X y = some (b0, cs)) :
    b0 = 2 ∧ cs = [3, -1] ∧
    manual_mse y (predict b0 cs X) = 0 ∧
    manual_r2 y (predict b0 cs X) = 1 := by
  have hX : X ≠ [] := by
    intro hnil
    rw [hnil, show fit ([] : List (List ℚ)) y = none from rfl] at hfit
    exact absurd hfit (by simp)
  have hm : (X.headD []).length = 2 := by
    cases X with
    | nil => exact absurd rfl hX
    | cons r xs => exact hshape r (List.mem_cons_self r xs)
  obtain ⟨hlenθ, hsatθ, huniq⟩ := fit_some_facts hX hy hfit
  have hv3 : ([2, 3, -1] : List ℚ).length = (X.headD []).length + 1 := by
    rw [hm]
    rfl
  have hθstar : ∀ e ∈ (normalMatrix X).zip (normalVector X y),
      eqnSat [2, 3, -1] e := by
    apply normalEq_sat_of_rows hX hy hv3
    intro k hk
    rw [withBias_row_dot3 hm hk, hlin k hk]
    ring
  have hstar_eq : [2, 3, -1] = (b0 :: cs : List ℚ) :=
    huniq [2, 3, -1] hv3 hθstar
  have hb0 : b0 = 2 := by
    injection hstar_eq with h1 _
    exact h1.symm
  have hcs : cs = [3, -1] := by
    injection hstar_eq with _ h2
    exact h2.symm
  subst hb0
  subst hcs
  have hpred : ∀ i, i < X.length →
      (predict 2 [3, -1] X).getD i 0 = y.getD i 0 := by
    intro i hi
    unfold predict
    rw [getD_map_of_lt _ X hi [] 0,
      show ([3, -1] : List ℚ).length = 2 from rfl, rsum_two]
    simp only [List.getD_cons_zero, List.getD_cons_succ]
    rw [hlin i hi]
    ring
  have hres0 : rsum y.length
      (fun i => (y.getD i 0 - (predict 2 [3, -1] X).getD i 0) ^ 2) = 0 := by
    have hz : ∀ i, i < y.length →
        (y.getD i 0 - (predict 2 [3, -1] X).getD i 0) ^ 2 = 0 := by
      intro i hi
      rw [hpred i (by omega)]
      ring
    rw [rsum_congr hz, rsum_const_zero]
  refine ⟨rfl, rfl, ?_, ?_⟩
  · unfold manual_mse
    rw [hres0]
    exact zero_div _
  · have hssne : manual_sum_squares y (manual_mean y) ≠ 0 := by
      intro hss
      unfold manual_sum_squares at hss
      have hally : ∀ i, i < y.length → y.getD i 0 = manual_mean y := by
        intro i hi
        have h0 := rsum_eq_zero_of_nonneg
          (fun j _ => sq_nonneg (y.getD j 0 - manual_mean y)) hss i hi
        have h1 : y.getD i 0 - manual_mean y = 0 :=
          (pow_eq_zero_iff (by norm_num : (2 : ℕ) ≠ 0)).mp h0
        linarith
      have hker : ∀ k, k < X.length →
          listDot ((withBias X).getD k [])
            [2 - manual_mean y, 3, -1] = 0 := by
        intro k hk
        rw [withBias_row_dot3 hm hk]
        have h1 := hlin k hk
        have h2 := hally k (by omega)
        linarith
      have hv3b : ([2 - manual_mean y, 3, -1] : List ℚ).length =
          (X.headD []).length + 1 := by
        rw [hm]
        rfl
      have hsat2 : ∀ e ∈ (normalMatrix X).zip (normalVector X y),
          eqnSat (List.zipWith (fun s t => s + t) [2, 3, -1]
            [2 - manual_mean y, 3, -1]) e := by
        intro e he
        have h1 := hθstar e he
        obtain ⟨i, hiA, _, rfl⟩ := mem_zip_getD he
        have hi2 : i < (X.headD []).length + 1 := by
          rw [normalMatrix_length hX] at hiA
          exact hiA
        unfold eqnSat at h1 ⊢
        rw [listDot_add_right _ [2, 3, -1] [2 - manual_mean y, 3, -1] rfl,
          normalMatrix_dot_kernel hX hv3b hker i hi2, add_zero]
        exact h1
      have hlen2 : (List.zipWith (fun s t => s + t) [2, 3, -1]
          [2 - manual_mean y, 3, -1] : List ℚ).length =
          (X.headD []).length + 1 := by
        rw [hm]
        rfl
      have heq2 := huniq _ hlen2 hsat2
      have hzip : (List.zipWith (fun s t => s + t) [2, 3, -1]
          [2 - manual_mean y, 3, -1] : List ℚ) =
          [2 + (2 - manual_mean y), 3 + 3, -1 + -1] := rfl
      rw [hzip] at heq2
      injection heq2 with _ hrest
      injection hrest with hb _
      norm_num at hb
    simp only [manual_r2]
    rw [if_pos hssne, hres0, zero_div, sub_zero]

/-- Claim C2. `fit` fails with the singular-design-matrix outcome (`none`)
whenever the design matrix contains two identical feature columns, and —
in general — whenever the pivot selected at any step of the Gaussian
elimination of the bias-augmented normal matrix has magnitude below the
1e-12 epsilon threshold (the `fitPivotsOK X y = false` disjunct, which by
`solveAux_isSome_iff` mirrors the elimination trace step by step); it never
returns coefficients in either situation. -/
theorem c2_singular_design_fails (X : List (List ℚ)) (y : List ℚ)
    (hshape : ∀ r ∈ X, r.length = (X.headD []).length)
    (hy : y.length = X.length)
    (hcause :
      (∃ j1 j2, j1 < (X.headD []).length ∧ j2 < (X.headD []).length ∧
        j1 ≠ j2 ∧ ∀ r ∈ X, r.getD j1 0 = r.getD j2 0) ∨
      fitPivotsOK X y = false) :
    fit X y = none := by
  rcases hcause with ⟨j1, j2, hj1, hj2, hjne, hcols⟩ | hpiv
  · cases hfit : fit X y with
    | none => rfl
    | some pr =>
        exfalso
        obtain ⟨b0, cs⟩ := pr
        have hX : X ≠ [] := by
          intro hnil
          rw [hnil] at hj1
          simp at hj1
        obtain ⟨hlenθ, hsatθ, huniq⟩ := fit_some_facts hX hy hfit
        have hvlen : (unitDiff ((X.headD []).length + 1) (j1 + 1) (j2 + 1)).length =
            (X.headD []).length + 1 := unitDiff_length _ _ _
        have hker : ∀ k, k < X.length →
            listDot ((withBias X).getD k [])
              (unitDiff ((X.headD []).length + 1) (j1 + 1) (j2 + 1)) = 0 := by
          intro k hk
          have hWklen : ((withBias X).getD k []).length =
              (X.headD []).length + 1 := withBias_row_length hk
          rw [listDot_unitDiff hWklen (by omega) (by omega) (by omega)]
          rw [withBias_getD_succ hk hj1, withBias_getD_succ hk hj2]
          have hmem : X.getD k [] ∈ X := by
            rw [List.getD_eq_getElem _ _ hk]
            exact List.getElem_mem _
          rw [hcols (X.getD k []) hmem]
          ring
        have hsat2 : ∀ e ∈ (normalMatrix X).zip (normalVector X y),
            eqnSat (List.zipWith (fun s t => s + t) (b0 :: cs)
              (unitDiff ((X.headD []).length + 1) (j1 + 1) (j2 + 1))) e := by
          intro e he
          have h1 := hsatθ e he
          obtain ⟨i, hiA, _, rfl⟩ := mem_zip_getD he
          have hi2 : i < (X.headD []).length + 1 := by
            rw [normalMatrix_length hX] at hiA
            exact hiA
          unfold eqnSat at h1 ⊢
          rw [listDot_add_right _ (b0 :: cs) _ (by rw [hlenθ, hvlen]),
            normalMatrix_dot_kernel hX hvlen hker i hi2, add_zero]
          exact h1
        have hlen2 : (List.zipWith (fun s t => s + t) (b0 :: cs)
            (unitDiff ((X.headD []).length + 1) (j1 + 1) (j2 + 1))).length =
            (X.headD []).length + 1 := by
          rw [List.length_zipWith, hlenθ, hvlen]
          omega
        have heq2 := huniq _ hlen2 hsat2
        have hj1len : j1 + 1 < (b0 :: cs).length := by
          rw [hlenθ]
          omega
        have hcontr := congrArg (fun l => l.getD (j1 + 1) 0) heq2
        simp only at hcontr
        rw [getD_zipWith_add hj1len (by rw [hlenθ, hvlen])] at hcontr
        rw [unitDiff_getD (by rw [hlenθ] at hj1len; omega : j1 + 1 < (X.headD []).length + 1)] at hcontr
        rw [if_pos rfl] at hcontr
        linarith
  · unfold fitPivotsOK at hpiv
    have h1 := solveAux_isSome_iff (normalMatrix X).length
      ((normalMatrix X).zip (normalVector X y))
    rw [hpiv] at h1
    unfold fit
    cases hge : gaussian_elimination (normalMatrix X) (normalVector X y) with
    | none => rfl
    | some θ =>
        exfalso
        unfold gaussian_elimination at hge
        rw [hge] at h1
        simp at h1

/-- Concrete evaluation of the normal matrix of `Xc1` (entries δ = 1e-6:
first row [3, 2δ, 2δ], then [2δ, 2δ², δ²] and [2δ, δ², 2δ²]). -/
theorem normalMatrix_Xc1_eval :
    normalMatrix Xc1 =
      [[3, 1 / 500000, 1 / 500000],
       [1 / 500000, 1 / 500000000000, 1 / 1000000000000],
       [1 / 500000, 1 / 1000000000000, 1 / 500000000000]] := by
  norm_num [normalMatrix, matrix_multiply, matrix_transpose, withBias, Xc1,
    rsum, List.range_succ, List.getD_cons_zero, List.getD_cons_succ]

/-- Claim C1 (counterexample). The design matrix `Xc1` (2 features scaled
by 1e-6) with targets exactly `y = 2 + 3·x1 - x2` has a *nonsingular*
bias-augmented normal matrix — its only kernel vector of length 3 is zero —
yet `fit` fails, because partial pivoting reaches the pivot 2δ²/3 =
(2/3)·1e-12, which is below the 1e-12 epsilon threshold. So "X'ᵀX'
nonsingular" does not suffice for recovery as the claim states it. -/
theorem c1_counterexample :
    (∀ r ∈ Xc1, r.length = 2) ∧
    yc1.length = Xc1.length ∧
    (∀ i, i < Xc1.length →
      yc1.getD i 0 =
        2 + 3 * (Xc1.getD i []).getD 0 0 - (Xc1.getD i []).getD 1 0) ∧
    (∀ v : List ℚ, v.length = 3 →
      (∀ row ∈ normalMatrix Xc1, listDot row v = 0) → v = [0, 0, 0]) ∧
    fit Xc1 yc1 = none := by
  refine ⟨?_, rfl, ?_, ?_, ?_⟩
  · intro r hr
    simp only [Xc1, List.mem_cons, List.not_mem_nil, or_false] at hr
    rcases hr with rfl | rfl | rfl <;> rfl
  · intro i hi
    have hi3 : i < 3 := hi
    interval_cases i <;>
      norm_num [Xc1, yc1, List.getD_cons_zero, List.getD_cons_succ]
  · intro v hv hrows
    rw [normalMatrix_Xc1_eval] at hrows
    obtain ⟨a, b, c, rfl⟩ := List.length_eq_three.mp hv
    have h0 := hrows [3, 1 / 500000, 1 / 500000] (by simp)
    have h1 := hrows [1 / 500000, 1 / 500000000000, 1 / 1000000000000]
      (by simp)
    have h2 := hrows [1 / 500000, 1 / 1000000000000, 1 / 500000000000]
      (by simp)
    simp only [listDot, List.zipWith_cons_cons, List.zipWith_nil_right,
      List.sum_cons, List.sum_nil, add_zero] at h0 h1 h2
    simp only [List.cons.injEq, and_true]
    refine ⟨by linarith, by linarith, by linarith⟩
  · have hNV : normalVector Xc1 yc1 =
        [6 + 4 / 1000000, 1 / 250000 + 5 / 1000000000000,
          1 / 250000 + 1 / 1000000000000] := by
      norm_num [normalVector, matrix_transpose, withBias, Xc1, yc1, rsum,
        List.range_succ, List.getD_cons_zero, List.getD_cons_succ]
    unfold fit gaussian_elimination
    rw [normalMatrix_Xc1_eval, hNV]
    norm_num [show (3 : ℕ) = 2 + 1 from rfl, show (2 : ℕ) = 1 + 1 from rfl,
      show (1 : ℕ) = 0 + 1 from rfl, solveAux, pickPivot, elimStep, headC,
      eps, listDot, abs_of_nonneg, List.zip]

/-- Claim C1 (witness for the amended theorem): on the well-conditioned
design `[[0,0],[1,0],[0,1]]` with exact targets `[2, 5, 1]`, `fit` succeeds
and returns intercept 2 and coefficients [3, -1] exactly, with zero MSE and
R² = 1 on the training rows. -/
theorem c1_exact_recovery_witness :
    fit [[0, 0], [1, 0], [0, 1]] [2, 5, 1] = some (2, [3, -1]) ∧
    manual_mse [2, 5, 1]
      (predict 2 [3, -1] [[0, 0], [1, 0], [0, 1]]) = 0 ∧
    manual_r2 [2, 5, 1]
      (predict 2 [3, -1] [[0, 0], [1, 0], [0, 1]]) = 1 := by
  have hNM : normalMatrix [[0, 0], [1, 0], [0, 1]] =
      [[3, 1, 1], [1, 1, 0], [1, 0, 1]] := by
    norm_num [normalMatrix, matrix_multiply, matrix_transpose, withBias,
      rsum, List.range_succ, List.getD_cons_zero, List.getD_cons_succ]
  have hNV : normalVector [[0, 0], [1, 0], [0, 1]] [2, 5, 1] = [8, 5, 1] := by
    norm_num [normalVector, matrix_transpose, withBias, rsum,
      List.range_succ, List.getD_cons_zero, List.getD_cons_succ]
  have hfit : fit [[0, 0], [1, 0], [0, 1]] [2, 5, 1] = some (2, [3, -1]) := by
    unfold fit gaussian_elimination
    rw [hNM, hNV]
    norm_num [show (3 : ℕ) = 2 + 1 from rfl, show (2 : ℕ) = 1 + 1 from rfl,
      show (1 : ℕ) = 0 + 1 from rfl, solveAux, pickPivot, elimStep, headC,
      eps, listDot, abs_of_nonneg, List.zip]
  have h := c1_exact_recovery [[0, 0], [1, 0], [0, 1]] [2, 5, 1] 2 [3, -1]
    (by
      intro r hr
      simp only [List.mem_cons, List.not_mem_nil, or_false] at hr
      rcases hr with rfl | rfl | rfl <;> rfl)
    rfl
    (by
      intro i hi
      have hi3 : i < 3 := hi
      interval_cases i <;>
        norm_num [List.getD_cons_zero, List.getD_cons_succ])
    hfit
  exact ⟨hfit, h.2.2.1, h.2.2.2⟩

/-- Claim C2 (witness): fitting on a design matrix with two identical
feature columns fails with the singular-design-matrix outcome. -/
theorem c2_singular_design_fails_witness :
    fit [[1, 1], [2, 2]] [1, 2] = none :=
  c2_singular_design_fails [[1, 1], [2, 2]] [1, 2]
    (by
      intro r hr
      simp only [List.mem_cons, List.not_mem_nil, or_false] at hr
      rcases hr with rfl | rfl <;> rfl)
    rfl
    (Or.inl ⟨0, 1, by norm_num, by norm_num, by norm_num,
      by
        intro r hr
        simp only [List.mem_cons, List.not_mem_nil, or_false] at hr
        rcases hr with rfl | rfl <;> rfl⟩)
